import Mathlib

/-!
Verification of the `fsr-tools` LFSR library (`src/lfsr/lfsr.py`).

The Python code works on integers viewed through binary f-strings
(`f'{n:0{w}b}'`): the integer is rendered in binary, zero-padded on the
left to width `w` (the string is longer than `w` when the number needs
more digits), and lists of single-character digits are manipulated and
re-read with `int(_, 2)`.  We model those strings as `List Nat` of
binary digits, most significant first.  Fallible operations (the
`ValueError` raised by `log` on 0, the `TypeError` raised by `reduce`
on an empty feedback list, the `ValueError` raised by `int('', 2)`)
are modelled with `Option`.

One operation of the source is not integer-exact: the Fibonacci field
order `ceil(log(poly, 2).real)` is computed in IEEE doubles, and
CPython's result deviates from the exact ceiling of log2 at some large
polynomials (30 at `2 ^ 29`, 49 at `2 ^ 49 + 1`, 52 at `2 ^ 51 - 1`) —
a deviation that is unavoidable in double precision near `2 ^ 53`.
Floating point is outside this embedding: `cl` models the exact ceiling
the spec prescribes, and the deviation of the source from it is treated
as a defect of the source where it matters (see the theorems for C1 and
C3, and the Fibonacci half of C9).  Everything else in the source —
including the whole Galois register — is integer-exact.
-/

/-- Length of the Python binary rendering of `n`, computed with
structural fuel so the kernel can evaluate it.  `blenFuel fuel n` is
correct whenever `n ≤ fuel`. -/
def blenFuel : Nat → Nat → Nat
  | 0, _ => 1
  | fuel + 1, n => if n ≤ 1 then 1 else blenFuel fuel (n / 2) + 1

/-- Number of characters of the minimal binary string of `n` in Python
(length 1 for `n ≤ 1`, `blen (n / 2) + 1` otherwise). -/
def blen (n : Nat) : Nat := blenFuel n n

/-- Field order of the Fibonacci register, source line
`self.field_order = ceil(log(self.poly, 2).real)`, modelled as the
exact ceiling of the base-2 logarithm — the value spec section 4.1
prescribes.  For `p ≥ 2` the exact ceiling equals the bit length of
`p - 1`; for `p ≤ 1` the source computes 0.  The source evaluates the
ceiling of an IEEE-double logarithm instead, which deviates from this
exact value at some large polynomials (CPython: 30 at `2 ^ 29`, 49 at
`2 ^ 49 + 1`, 52 at `2 ^ 51 - 1`); that deviation cannot be captured by
an integer embedding and is reported as a defect of the source under C3
(propagating to C1 and the Fibonacci half of C9). -/
def cl (p : Nat) : Nat := if p ≤ 1 then 0 else blen (p - 1)

/-- Digit `i` (0 = most significant) of `n` written in `w` binary digits. -/
def bitAt (w n i : Nat) : Nat := n / 2 ^ (w - 1 - i) % 2

/-- The digit list of the Python f-string `f'{n:0{w}b}'`: binary digits of
`n`, most significant first, left-padded with zeros to at least width `w`
(longer than `w` exactly when `n` needs more than `w` digits). -/
def toBits (w n : Nat) : List Nat :=
  (List.range (max w (blen n))).map (bitAt (max w (blen n)) n)

/-- Integer read back from a binary digit list, most significant digit
first: Python `int(''.join(str(d) for d in l), 2)`. -/
def fromBits (l : List Nat) : Nat := l.foldl (fun a b => 2 * a + b) 0

/-- The Fibonacci register of `class LFSR`: fields `poly`, `state` and the
saved initial state `__state_init`.  `field_order` is recomputed from
`poly` by `build_poly` on every reconstruction, so it is modelled as a
derived function. -/
structure LFSR where
  poly : Nat
  state : Nat
  state_init : Nat
deriving DecidableEq

/-- Python `LFSR.__init__(poly, state)` after `build_poly` succeeded
(it stores `state` both as current and as initial state). -/
def LFSR.mk' (poly state : Nat) : LFSR := ⟨poly, state, state⟩

/-- Derived `self.field_order` of the Fibonacci register, through `cl`:
the intended exact ceiling of log2.  At the large polynomials where the
source's IEEE-double computation differs from the exact ceiling (see
`cl`), the program's attribute differs from this model — the C3 code
bug. -/
def LFSR.field_order (r : LFSR) : Nat := cl r.poly

/-- Full Python `LFSR(poly, state)` construction: `build_poly` evaluates
`log(poly, 2)`, which raises `ValueError` for `poly = 0`. -/
def LFSR.build (poly state : Nat) : Option LFSR :=
  if poly = 0 then none else some (LFSR.mk' poly state)

/-- Feedback list collected by the Fibonacci `fround` (lines 64-67): the
state digits at every position `x < field_order` whose character in
`poly_str = f'{poly:0{field_order}b}'` is `'1'`. -/
def LFSR.taps (poly state : Nat) : List Nat :=
  (List.range (cl poly)).filterMap
    (fun x => if (toBits (cl poly) poly).getD x 0 = 1
              then some ((toBits (cl poly) state).getD x 0) else none)

/-- Python `functools.reduce(f, l)` without initializer: `none` (a
`TypeError`) on the empty list, otherwise the left fold from the head. -/
def pyreduce (f : Nat → Nat → Nat) : List Nat → Option Nat
  | [] => none
  | h :: t => some (t.foldl f h)

/-- One step of the inner `fround` closure of `LFSR.build_poly`
(lines 59-77): split the state into digits of the padded binary string,
collect the digits at the tap positions, left-shift by slice assignment
(`state_elab[0:m-1] = state_elab[1:m]` replaces that slice, keeping any
extra digits beyond `field_order` in place) and overwrite position
`field_order - 1` with the XOR-reduce of the collected taps.  Returns
`none` when the feedback list is empty, where Python's `reduce` raises a
`TypeError`. -/
def LFSR.fround (poly state : Nat) : Option Nat :=
  (pyreduce (fun a b => a ^^^ b) (LFSR.taps poly state)).map
    (fun fb => fromBits
      ((((toBits (cl poly) state).drop 1).take (cl poly - 1)
        ++ (toBits (cl poly) state).drop (cl poly - 1)).set (cl poly - 1) fb))

/-- Python `LFSR.next`: one round, returning the updated register. -/
def LFSR.next (r : LFSR) : Option LFSR :=
  (LFSR.fround r.poly r.state).map (fun s => { r with state := s })

/-- Python `LFSR.cycle(rounds)`: `for x in range(0, rounds): self.__round()`. -/
def LFSR.cycle (r : LFSR) (rounds : Nat) : Option LFSR :=
  (List.range rounds).foldl (fun acc _ => acc.bind LFSR.next) (some r)

/-- Python `LFSR.full_cycle`: `for x in range(0, 2 ** self.field_order)`. -/
def LFSR.full_cycle (r : LFSR) : Option LFSR :=
  (List.range (2 ^ r.field_order)).foldl (fun acc _ => acc.bind LFSR.next) (some r)

/-- Python `LFSR.reset`: `self.__init__(self.poly, self.__state_init)`. -/
def LFSR.reset (r : LFSR) : LFSR := LFSR.mk' r.poly r.state_init

/-- Python `LFSR.load(state)`: `self.__init__(self.poly, state)`. -/
def LFSR.load (r : LFSR) (s : Nat) : LFSR := LFSR.mk' r.poly s

/-- Loop body of `LFSR.state_table`: record `(cycle, state, register
state string)` then advance; a failing round aborts the whole call. -/
def LFSR.table_aux (poly : Nat) : Nat → Nat → Nat → Option (List (Nat × Nat × List Nat))
  | _, 0, _ => some []
  | idx, c + 1, s =>
      match LFSR.fround poly s with
      | none => none
      | some s2 =>
          (LFSR.table_aux poly (idx + 1) c s2).map
            (fun t => (idx, s, toBits (cl poly) s) :: t)

/-- Python `LFSR.state_table`: `2 ** field_order` records starting from the
current state, then `self.reset()`; returns the records and the register
as left behind by the call. -/
def LFSR.state_table (r : LFSR) : Option (List (Nat × Nat × List Nat) × LFSR) :=
  (LFSR.table_aux r.poly 0 (2 ^ r.field_order) r.state).map (fun t => (t, r.reset))

/-- Python classmethod `LFSR.from_lfsrs(*args)`: reset every input,
concatenate the padded polynomial and state strings, and construct a
register from the two concatenated integers.  With no arguments
`int('', 2)` raises `ValueError`. -/
def LFSR.from_lfsrs (rs : List LFSR) : Option LFSR :=
  match rs with
  | [] => none
  | _ :: _ =>
      let ep := rs.foldl (fun acc r => acc ++ toBits r.field_order r.poly) []
      let es := rs.foldl (fun acc r => acc ++ toBits r.field_order (LFSR.reset r).state) []
      LFSR.build (fromBits ep) (fromBits es)

/-- The Galois register of `class Galois_LFSR`. -/
structure Galois_LFSR where
  poly : Nat
  state : Nat
  state_init : Nat
deriving DecidableEq

/-- Python `Galois_LFSR.__init__(poly, state)` (never fails on naturals:
`f'{poly:0b}'` is defined for every nonnegative integer). -/
def Galois_LFSR.mk' (poly state : Nat) : Galois_LFSR := ⟨poly, state, state⟩

/-- Derived `self.field_order` of the Galois register:
`len(f'{self.poly:0b}')`, the exact length of the minimal binary string. -/
def Galois_LFSR.field_order (r : Galois_LFSR) : Nat := (toBits 0 r.poly).length

/-- Feedback array of the Galois `fround` after the loop of lines
210-215: starting from `[0] * field_order`, for `x` in
`[1, field_order)` entry `x-1` becomes `state[x]` XORed with the top
state bit when tap `x` of `poly_str = f'{poly:0b}'` is set, else
`state[x]` unchanged. -/
def Galois_LFSR.gfeedback (poly state : Nat) : List Nat :=
  (List.range' 1 ((toBits 0 poly).length - 1)).foldl
    (fun acc x => acc.set (x - 1)
      (if (toBits 0 poly).getD x 0 = 1
       then (toBits (toBits 0 poly).length state).getD 0 0
              ^^^ (toBits (toBits 0 poly).length state).getD x 0
       else (toBits (toBits 0 poly).length state).getD x 0))
    (List.replicate (toBits 0 poly).length 0)

/-- One step of the inner `fround` closure of `Galois_LFSR.build_poly`
(lines 204-220): build the feedback array, put the old top bit at
position `field_order - 1`, and reread the digits as an integer. -/
def Galois_LFSR.fround (poly state : Nat) : Nat :=
  fromBits ((Galois_LFSR.gfeedback poly state).set ((toBits 0 poly).length - 1)
    ((toBits (toBits 0 poly).length state).getD 0 0))

/-- Python `Galois_LFSR.next`. -/
def Galois_LFSR.next (r : Galois_LFSR) : Galois_LFSR :=
  { r with state := Galois_LFSR.fround r.poly r.state }

/-- Python `Galois_LFSR.cycle(rounds)`. -/
def Galois_LFSR.cycle (r : Galois_LFSR) (rounds : Nat) : Galois_LFSR :=
  (List.range rounds).foldl (fun acc _ => Galois_LFSR.next acc) r

/-- Python `Galois_LFSR.full_cycle`. -/
def Galois_LFSR.full_cycle (r : Galois_LFSR) : Galois_LFSR :=
  (List.range (2 ^ r.field_order)).foldl (fun acc _ => Galois_LFSR.next acc) r

/-- Python `Galois_LFSR.reset`. -/
def Galois_LFSR.reset (r : Galois_LFSR) : Galois_LFSR :=
  Galois_LFSR.mk' r.poly r.state_init

/-- Python `Galois_LFSR.load(state)`. -/
def Galois_LFSR.load (r : Galois_LFSR) (s : Nat) : Galois_LFSR :=
  Galois_LFSR.mk' r.poly s

/-- Loop body of `Galois_LFSR.state_table`. -/
def Galois_LFSR.table_aux (poly : Nat) : Nat → Nat → Nat → List (Nat × Nat × List Nat)
  | _, 0, _ => []
  | idx, c + 1, s =>
      (idx, s, toBits (toBits 0 poly).length s) ::
        Galois_LFSR.table_aux poly (idx + 1) c (Galois_LFSR.fround poly s)

/-- Python `Galois_LFSR.state_table`: records plus the register as left
behind (reset) by the call. -/
def Galois_LFSR.state_table (r : Galois_LFSR) :
    List (Nat × Nat × List Nat) × Galois_LFSR :=
  (Galois_LFSR.table_aux r.poly 0 (2 ^ r.field_order) r.state, r.reset)

/-- Python classmethod `Galois_LFSR.from_lfsrs(*args)`. -/
def Galois_LFSR.from_lfsrs (rs : List Galois_LFSR) : Option Galois_LFSR :=
  match rs with
  | [] => none
  | _ :: _ =>
      let ep := rs.foldl (fun acc r => acc ++ toBits r.field_order r.poly) []
      let es := rs.foldl
        (fun acc r => acc ++ toBits r.field_order (Galois_LFSR.reset r).state) []
      some (Galois_LFSR.mk' (fromBits ep) (fromBits es))

/-- Term list built by the `Galois_LFSR.algebraic` property (lines
224-237): `x ^ (field_order - x)` for every set bit among the first
`field_order - 1` positions, `x` when the last bit is set, and always a
final constant term `1`. -/
def Galois_LFSR.algebraic_terms (poly : Nat) : List String :=
  ((List.range ((toBits 0 poly).length - 1)).filterMap
    (fun x => if (toBits (toBits 0 poly).length poly).getD x 0 = 1
              then some ("x ^ " ++ toString ((toBits 0 poly).length - x)) else none))
  ++ (if (toBits (toBits 0 poly).length poly).getD ((toBits 0 poly).length - 1) 0 = 1
      then ["x"] else [])
  ++ ["1"]

/-- Python `Galois_LFSR.algebraic`: `' + '.join(poly_math)`. -/
def Galois_LFSR.algebraic (r : Galois_LFSR) : String :=
  String.intercalate " + " (Galois_LFSR.algebraic_terms r.poly)

/-- Feedback bit of spec section 4.2: the XOR over all positions
`i < field_order` of the state bits whose tap — bit `i` of the
polynomial's minimal binary representation — is set. -/
def fib_spec_fb (poly state : Nat) : Nat :=
  (List.range (cl poly)).foldl
    (fun a i => if bitAt (blen poly) poly i = 1
                then a ^^^ bitAt (cl poly) state i else a) 0

/-- One-step rule of spec section 4.2, written from the spec's words:
compute the feedback, shift `s[i] = s[i+1]` for `i` up to
`field_order - 2`, place the feedback at `s[field_order - 1]`, and reread
the digit vector with index 0 most significant. -/
def fib_spec_step (poly state : Nat) : Nat :=
  fromBits ((List.range (cl poly - 1)).map (fun i => bitAt (cl poly) state (i + 1))
    ++ [fib_spec_fb poly state])

/-- One-step rule of spec section 4.3, written from the spec's words:
with `msb` the top state bit, `new_stage[i-1]` is `s[i] XOR msb` when tap
`i` is set and `s[i]` otherwise for `i` in `[1, field_order)` (tap 0 is
never consulted), `new_stage[field_order-1] = msb`, and the result is the
integer formed from `new_stage` with index 0 most significant. -/
def galois_spec_step (poly state : Nat) : Nat :=
  fromBits ((List.range (blen poly - 1)).map
    (fun j => if bitAt (blen poly) poly (j + 1) = 1
              then bitAt (blen poly) state (j + 1) ^^^ bitAt (blen poly) state 0
              else bitAt (blen poly) state (j + 1))
    ++ [bitAt (blen poly) state 0])

/-- Iterated Fibonacci round on bare states, with `getD` standing in for
the value of a round that is known (in all uses) to succeed. -/
def fib_iter (poly : Nat) : Nat → Nat → Nat
  | 0, s => s
  | n + 1, s => fib_iter poly n ((LFSR.fround poly s).getD 0)

/-- Iterated Galois round on bare states. -/
def gal_iter (poly : Nat) : Nat → Nat → Nat
  | 0, s => s
  | n + 1, s => gal_iter poly n (Galois_LFSR.fround poly s)

/-- Sequential `next` calls on the Fibonacci register. -/
def LFSR.nextN : Nat → LFSR → Option LFSR
  | 0, r => some r
  | n + 1, r => (LFSR.next r).bind (LFSR.nextN n)

/-- Sequential `next` calls on the Galois register. -/
def Galois_LFSR.nextN : Nat → Galois_LFSR → Galois_LFSR
  | 0, r => r
  | n + 1, r => Galois_LFSR.nextN n (Galois_LFSR.next r)

/-! ### Lemmas about the binary-string model -/

lemma blenFuel_congr : ∀ (fuel fuel' n : Nat), n ≤ fuel → n ≤ fuel' →
    blenFuel fuel n = blenFuel fuel' n := by
  intro fuel
  induction fuel with
  | zero =>
    intro fuel' n hn _
    interval_cases n
    cases fuel' <;> simp [blenFuel]
  | succ f ih =>
    intro fuel' n hn hn'
    cases fuel' with
    | zero =>
      interval_cases n
      simp [blenFuel]
    | succ f' =>
      simp only [blenFuel]
      by_cases h1 : n ≤ 1
      · simp [h1]
      · simp only [h1, if_false]
        have hrec : n / 2 ≤ f := by omega
        have hrec' : n / 2 ≤ f' := by omega
        rw [ih f' (n / 2) hrec hrec']

lemma blen_zero : blen 0 = 1 := rfl

lemma blen_one : blen 1 = 1 := rfl

lemma blen_of_le_one (n : Nat) (h : n ≤ 1) : blen n = 1 := by
  interval_cases n <;> rfl

lemma blen_rec (n : Nat) (h : 2 ≤ n) : blen n = blen (n / 2) + 1 := by
  have h1 : ¬ n ≤ 1 := by omega
  show blenFuel n n = blenFuel (n / 2) (n / 2) + 1
  cases n with
  | zero => omega
  | succ m =>
    simp only [blenFuel, h1, if_false]
    have : (m + 1) / 2 ≤ m := by omega
    rw [blenFuel_congr m ((m + 1) / 2) ((m + 1) / 2) this le_rfl]

lemma blen_pos (n : Nat) : 1 ≤ blen n := by
  have : ∀ fuel m, 1 ≤ blenFuel fuel m := by
    intro fuel
    induction fuel with
    | zero => intro m; simp [blenFuel]
    | succ f ih =>
      intro m
      simp only [blenFuel]
      by_cases h : m ≤ 1 <;> simp [h]
  exact this n n

lemma lt_two_pow_blen (n : Nat) : n < 2 ^ blen n := by
  have key : ∀ fuel m, m ≤ fuel → m < 2 ^ blenFuel fuel m := by
    intro fuel
    induction fuel with
    | zero => intro m hm; interval_cases m; simp [blenFuel]
    | succ f ih =>
      intro m hm
      simp only [blenFuel]
      by_cases h1 : m ≤ 1
      · simp [h1]; omega
      · simp only [h1, if_false]
        have hrec : m / 2 ≤ f := by omega
        have hdiv := ih (m / 2) hrec
        have hpow : 2 ^ (blenFuel f (m / 2) + 1) = 2 * 2 ^ blenFuel f (m / 2) := by
          rw [Nat.pow_succ]; ring
        omega
  exact key n n le_rfl

lemma two_pow_blen_pred_le (n : Nat) (h : 1 ≤ n) : 2 ^ (blen n - 1) ≤ n := by
  have key : ∀ fuel m, m ≤ fuel → 1 ≤ m → 2 ^ (blenFuel fuel m - 1) ≤ m := by
    intro fuel
    induction fuel with
    | zero => intro m hm h1; omega
    | succ f ih =>
      intro m hm h1
      simp only [blenFuel]
      by_cases hle : m ≤ 1
      · simp [hle]; omega
      · simp only [hle, if_false]
        have hrec : m / 2 ≤ f := by omega
        have hdiv2 : 1 ≤ m / 2 := by omega
        have hd := ih (m / 2) hrec hdiv2
        have hbp : 1 ≤ blenFuel f (m / 2) := by
          have : ∀ fl k, 1 ≤ blenFuel fl k := by
            intro fl
            induction fl with
            | zero => intro k; simp [blenFuel]
            | succ g ihg =>
              intro k
              simp only [blenFuel]
              by_cases hk : k ≤ 1 <;> simp [hk]
          exact this f (m / 2)
        have hstep : blenFuel f (m / 2) + 1 - 1 = (blenFuel f (m / 2) - 1) + 1 := by omega
        rw [hstep, Nat.pow_succ]
        omega
  exact key n n le_rfl h

lemma blen_le_of_lt_pow (m n : Nat) (hm : 1 ≤ m) (hn : n < 2 ^ m) : blen n ≤ m := by
  by_cases h0 : n = 0
  · subst h0; simpa [blen_zero] using hm
  · by_contra hgt
    have hbl : m ≤ blen n - 1 := by omega
    have h1 : 2 ^ m ≤ 2 ^ (blen n - 1) := Nat.pow_le_pow_right (by omega) hbl
    have h2 : 2 ^ (blen n - 1) ≤ n := two_pow_blen_pred_le n (by omega)
    omega

lemma blen_unique (b n : Nat) (hb : 1 ≤ b) (hlo : 2 ^ (b - 1) ≤ n) (hhi : n < 2 ^ b) :
    blen n = b := by
  have hn1 : 1 ≤ n := le_trans (Nat.one_le_two_pow) hlo
  have h1 : blen n ≤ b := blen_le_of_lt_pow b n hb hhi
  have h2 : b ≤ blen n := by
    by_contra hlt
    have hble : blen n ≤ b - 1 := by omega
    have ha : n < 2 ^ blen n := lt_two_pow_blen n
    have hm : 2 ^ blen n ≤ 2 ^ (b - 1) := Nat.pow_le_pow_right (by omega) hble
    omega
  omega

lemma blen_two_pow (k : Nat) : blen (2 ^ k) = k + 1 := by
  refine blen_unique (k + 1) (2 ^ k) (by omega) ?_ ?_
  · simp
  · have : 2 ^ (k + 1) = 2 * 2 ^ k := by rw [Nat.pow_succ]; ring
    have hp : 1 ≤ 2 ^ k := Nat.one_le_two_pow
    omega

lemma cl_of_le_one (p : Nat) (h : p ≤ 1) : cl p = 0 := by simp [cl, h]

lemma cl_pos (p : Nat) (h : 2 ≤ p) : 1 ≤ cl p := by
  have : ¬ p ≤ 1 := by omega
  simpa [cl, this] using blen_pos (p - 1)

lemma le_two_pow_cl (p : Nat) (h : 2 ≤ p) : p ≤ 2 ^ cl p := by
  have hns : ¬ p ≤ 1 := by omega
  have := lt_two_pow_blen (p - 1)
  simp only [cl, hns, if_false]
  omega

lemma two_pow_cl_pred_lt (p : Nat) (h : 2 ≤ p) : 2 ^ (cl p - 1) < p := by
  have hns : ¬ p ≤ 1 := by omega
  have := two_pow_blen_pred_le (p - 1) (by omega)
  simp only [cl, hns, if_false]
  omega

lemma cl_le_blen (p : Nat) (h : 2 ≤ p) : cl p ≤ blen p := by
  have hns : ¬ p ≤ 1 := by omega
  simp only [cl, hns, if_false]
  exact blen_le_of_lt_pow (blen p) (p - 1) (blen_pos p)
    (by have := lt_two_pow_blen p; omega)

lemma cl_two_pow (k : Nat) (hk : 1 ≤ k) : cl (2 ^ k) = k := by
  have h2 : 2 ≤ 2 ^ k := by
    calc 2 = 2 ^ 1 := rfl
    _ ≤ 2 ^ k := Nat.pow_le_pow_right (by omega) hk
  have hns : ¬ 2 ^ k ≤ 1 := by omega
  simp only [cl, hns, if_false]
  refine blen_unique k (2 ^ k - 1) hk ?_ ?_
  · have hs : 2 ^ k = 2 ^ (k - 1) * 2 := by
      rw [← Nat.pow_succ]
      congr 1
      omega
    have hp : 1 ≤ 2 ^ (k - 1) := Nat.one_le_two_pow
    omega
  · omega

lemma cl_eq_blen_of_not_pow (p : Nat) (h : 2 ≤ p) (hnp : 2 ^ (blen p - 1) < p) :
    cl p = blen p := by
  have hns : ¬ p ≤ 1 := by omega
  simp only [cl, hns, if_false]
  refine blen_unique (blen p) (p - 1) (blen_pos p) (by omega) ?_
  have := lt_two_pow_blen p
  omega

lemma bitAt_le_one (w n i : Nat) : bitAt w n i ≤ 1 := by
  simp only [bitAt]
  omega

lemma length_toBits (w n : Nat) : (toBits w n).length = max w (blen n) := by
  simp [toBits]

lemma toBits_eq_of_blen_le (w n : Nat) (h : blen n ≤ w) :
    toBits w n = (List.range w).map (bitAt w n) := by
  simp [toBits, Nat.max_eq_left h]

lemma toBits_of_lt (w n : Nat) (hw : 1 ≤ w) (hn : n < 2 ^ w) :
    toBits w n = (List.range w).map (bitAt w n) :=
  toBits_eq_of_blen_le w n (blen_le_of_lt_pow w n hw hn)

lemma foldl_fromBits_acc (l : List Nat) : ∀ a : Nat,
    l.foldl (fun x b => 2 * x + b) a = a * 2 ^ l.length + fromBits l := by
  induction l with
  | nil => intro a; simp [fromBits]
  | cons b t ih =>
    intro a
    show t.foldl (fun x b => 2 * x + b) (2 * a + b) = _
    rw [ih (2 * a + b)]
    have hb : fromBits (b :: t) = b * 2 ^ t.length + fromBits t := by
      show t.foldl (fun x b => 2 * x + b) (2 * 0 + b) = _
      rw [ih (2 * 0 + b)]
      ring_nf
    rw [hb]
    simp [List.length_cons, Nat.pow_succ]
    ring

lemma fromBits_append (l l' : List Nat) :
    fromBits (l ++ l') = fromBits l * 2 ^ l'.length + fromBits l' := by
  show (l ++ l').foldl (fun a b => 2 * a + b) 0 = _
  rw [List.foldl_append, foldl_fromBits_acc]
  rfl

lemma fromBits_lt (l : List Nat) (h : ∀ x ∈ l, x ≤ 1) :
    fromBits l < 2 ^ l.length := by
  have key : ∀ (t : List Nat) (a : Nat), (∀ x ∈ t, x ≤ 1) →
      t.foldl (fun x b => 2 * x + b) a < (a + 1) * 2 ^ t.length := by
    intro t
    induction t with
    | nil => intro a _; simp
    | cons b u ih =>
      intro a hmem
      have hb : b ≤ 1 := hmem b (List.mem_cons_self b u)
      have hrest : ∀ x ∈ u, x ≤ 1 := fun x hx => hmem x (List.mem_cons_of_mem b hx)
      show u.foldl (fun x b => 2 * x + b) (2 * a + b) < _
      have := ih (2 * a + b) hrest
      have hlen : 2 ^ (b :: u).length = 2 * 2 ^ u.length := by
        simp [List.length_cons, Nat.pow_succ]; ring
      have hpos : 1 ≤ 2 ^ u.length := Nat.one_le_two_pow
      calc u.foldl (fun x b => 2 * x + b) (2 * a + b)
      _ < (2 * a + b + 1) * 2 ^ u.length := this
      _ ≤ (a + 1) * 2 ^ (b :: u).length := by rw [hlen]; nlinarith
  simpa using key l 0 h

lemma fromBits_range_bitAt : ∀ (w n : Nat), n < 2 ^ w →
    fromBits ((List.range w).map (bitAt w n)) = n := by
  intro w
  induction w with
  | zero => intro n hn; interval_cases n; simp [fromBits]
  | succ v ih =>
    intro n hn
    rw [List.range_succ, List.map_append]
    have hlast : bitAt (v + 1) n v = n % 2 := by
      simp [bitAt]
    have hmap : (List.range v).map (bitAt (v + 1) n) =
        (List.range v).map (bitAt v (n / 2)) := by
      apply List.map_congr_left
      intro i hi
      have hiv : i < v := List.mem_range.mp hi
      show n / 2 ^ (v + 1 - 1 - i) % 2 = n / 2 / 2 ^ (v - 1 - i) % 2
      rw [Nat.div_div_eq_div_mul]
      have : 2 * 2 ^ (v - 1 - i) = 2 ^ (v - i) := by
        have hvi : v - 1 - i + 1 = v - i := by omega
        rw [← hvi, Nat.pow_succ]; ring
      rw [this]
      have : v + 1 - 1 - i = v - i := by omega
      rw [this]
    have hdiv : n / 2 < 2 ^ v := by
      have : 2 ^ (v + 1) = 2 * 2 ^ v := by rw [Nat.pow_succ]; ring
      omega
    rw [hmap, fromBits_append, ih (n / 2) hdiv]
    simp only [List.map_cons, List.map_nil, List.length_cons, List.length_nil,
      fromBits, List.foldl_cons, List.foldl_nil, hlast]
    omega

lemma fromBits_toBits (w n : Nat) : fromBits (toBits w n) = n := by
  have hlt : n < 2 ^ max w (blen n) :=
    lt_of_lt_of_le (lt_two_pow_blen n)
      (Nat.pow_le_pow_right (by omega) (le_max_right _ _))
  simpa [toBits] using fromBits_range_bitAt (max w (blen n)) n hlt

lemma getD_map_range (w i : Nat) (f : Nat → Nat) (hi : i < w) :
    ((List.range w).map f).getD i 0 = f i := by
  rw [List.getD_eq_getElem?_getD, List.getElem?_map, List.getElem?_range hi]
  rfl

/-! ### Generic list helpers -/

lemma filterMap_congr_mem {α β : Type} : ∀ (l : List α) (f g : α → Option β),
    (∀ x ∈ l, f x = g x) → l.filterMap f = l.filterMap g := by
  intro l
  induction l with
  | nil => intro f g _; rfl
  | cons x xs ih =>
    intro f g h
    rw [List.filterMap_cons, List.filterMap_cons, h x (List.mem_cons_self x xs),
      ih f g (fun y hy => h y (List.mem_cons_of_mem x hy))]

lemma foldl_congr_mem {α β : Type} : ∀ (l : List α) (f g : β → α → β) (a : β),
    (∀ acc x, x ∈ l → f acc x = g acc x) → l.foldl f a = l.foldl g a := by
  intro l
  induction l with
  | nil => intro f g a _; rfl
  | cons x xs ih =>
    intro f g a h
    simp only [List.foldl_cons]
    rw [h a x (List.mem_cons_self x xs)]
    exact ih f g (g a x) (fun acc y hy => h acc y (List.mem_cons_of_mem x hy))

lemma foldl_xor_filterMap : ∀ (l : List Nat) (g : Nat → Option Nat) (a : Nat),
    (l.filterMap g).foldl (fun x y => x ^^^ y) a
      = l.foldl (fun acc x => match g x with | some v => acc ^^^ v | none => acc) a := by
  intro l
  induction l with
  | nil => intro g a; rfl
  | cons x xs ih =>
    intro g a
    cases hgx : g x with
    | none => simp [List.filterMap_cons, hgx, ih]
    | some v => simp [List.filterMap_cons, hgx, ih]

lemma set_append_len {α : Type} : ∀ (A : List α) (b v : α) (rest : List α) (n : Nat),
    A.length = n → (A ++ b :: rest).set n v = A ++ v :: rest := by
  intro A
  induction A with
  | nil =>
    intro b v rest n h
    subst h
    simp
  | cons a t ih =>
    intro b v rest n h
    cases n with
    | zero => simp at h
    | succ n' =>
      have ht : t.length = n' := by simpa using h
      show a :: (t ++ b :: rest).set n' v = a :: (t ++ v :: rest)
      rw [ih b v rest n' ht]

lemma set_map_range_cons (j : Nat) (g : Nat → Nat) (b v : Nat) (rest : List Nat) :
    (((List.range j).map g) ++ b :: rest).set j v = ((List.range j).map g) ++ v :: rest :=
  set_append_len _ b v rest j (by simp)

lemma range_map_drop_one (k : Nat) (f : Nat → Nat) :
    ((List.range (k + 1)).map f).drop 1 = (List.range k).map (fun i => f (i + 1)) := by
  rw [List.range_succ_eq_map, List.map_cons, List.drop_one, List.tail_cons, List.map_map]
  rfl

lemma range_map_drop_last (k : Nat) (f : Nat → Nat) :
    ((List.range (k + 1)).map f).drop k = [f k] := by
  rw [List.range_succ, List.map_append]
  have h : ((List.range k).map f).length = k := by simp
  calc ((List.range k).map f ++ [f k]).drop k
  _ = ((List.range k).map f ++ [f k]).drop ((List.range k).map f).length := by rw [h]
  _ = [f k] := List.drop_left _ _

lemma xor_le_one (a b : Nat) (ha : a ≤ 1) (hb : b ≤ 1) : a ^^^ b ≤ 1 := by
  interval_cases a <;> interval_cases b <;> decide

lemma foldl_le_one (l : List Nat) (f : Nat → Nat → Nat)
    (hf : ∀ a x, a ≤ 1 → f a x ≤ 1) : ∀ a, a ≤ 1 → l.foldl f a ≤ 1 := by
  induction l with
  | nil => intro a ha; simpa
  | cons x xs ih =>
    intro a ha
    exact ih (f a x) (hf a x ha)

/-! ### The Fibonacci round agrees with the spec rule -/

lemma bitAt_blen_zero (p : Nat) (hp : 1 ≤ p) : bitAt (blen p) p 0 = 1 := by
  have h1 : 2 ^ (blen p - 1) ≤ p := two_pow_blen_pred_le p hp
  have h2 : p < 2 ^ blen p := lt_two_pow_blen p
  have hL : blen p - 1 + 1 = blen p := by have := blen_pos p; omega
  have hdiv : p / 2 ^ (blen p - 1) = 1 := by
    apply Nat.div_eq_of_lt_le
    · simpa using h1
    · have hpow : 2 ^ (blen p - 1 + 1) = 2 ^ (blen p - 1) * 2 := Nat.pow_succ 2 _
      rw [hL] at hpow
      omega
  simp [bitAt, hdiv]

lemma toBits_getD (w n i : Nat) (hi : i < max w (blen n)) :
    (toBits w n).getD i 0 = bitAt (max w (blen n)) n i := by
  unfold toBits
  exact getD_map_range _ _ _ hi

lemma LFSR.taps_eq (p s : Nat) (hp : 2 ≤ p) (hs : s < 2 ^ cl p) :
    LFSR.taps p s = bitAt (cl p) s 0 ::
      (List.range (cl p - 1)).filterMap
        (fun i => if bitAt (blen p) p (i + 1) = 1
                  then some (bitAt (cl p) s (i + 1)) else none) := by
  have hm1 := cl_pos p hp
  have hmL := cl_le_blen p hp
  have hsb : blen s ≤ cl p := blen_le_of_lt_pow _ _ hm1 hs
  have hmax_p : max (cl p) (blen p) = blen p := Nat.max_eq_right hmL
  have hmax_s : max (cl p) (blen s) = cl p := Nat.max_eq_left hsb
  have hclean : LFSR.taps p s = (List.range (cl p)).filterMap
      (fun x => if bitAt (blen p) p x = 1 then some (bitAt (cl p) s x) else none) := by
    unfold LFSR.taps
    apply filterMap_congr_mem
    intro x hx
    have hx1 : x < cl p := List.mem_range.mp hx
    rw [toBits_getD (cl p) p x (by omega), toBits_getD (cl p) s x (by omega),
      hmax_p, hmax_s]
  rw [hclean]
  obtain ⟨k, hk⟩ : ∃ k, cl p = k + 1 := ⟨cl p - 1, by omega⟩
  rw [hk, List.range_succ_eq_map, List.filterMap_cons, List.filterMap_map]
  have h0 : bitAt (blen p) p 0 = 1 := bitAt_blen_zero p (by omega)
  simp only [h0, if_pos, Nat.add_sub_cancel]
  rfl

lemma fib_fround_eq_spec (p s : Nat) (hp : 2 ≤ p) (hs : s < 2 ^ cl p) :
    LFSR.fround p s = some (fib_spec_step p s) := by
  have hm1 := cl_pos p hp
  have h0 : bitAt (blen p) p 0 = 1 := bitAt_blen_zero p (by omega)
  have hstate : toBits (cl p) s = (List.range (cl p)).map (bitAt (cl p) s) :=
    toBits_of_lt _ _ hm1 hs
  obtain ⟨k, hk⟩ : ∃ k, cl p = k + 1 := ⟨cl p - 1, by omega⟩
  unfold LFSR.fround fib_spec_step fib_spec_fb
  rw [LFSR.taps_eq p s hp hs, hstate, hk]
  simp only [Nat.add_sub_cancel, pyreduce, Option.map_some']
  rw [range_map_drop_one, range_map_drop_last]
  have htake := List.take_of_length_le
    (show ((List.range k).map (fun i => bitAt (k + 1) s (i + 1))).length ≤ k by simp)
  rw [htake, set_map_range_cons]
  have hfb : ((List.range k).filterMap
      (fun i => if bitAt (blen p) p (i + 1) = 1
                then some (bitAt (k + 1) s (i + 1)) else none)).foldl
        (fun a b => a ^^^ b) (bitAt (k + 1) s 0)
      = (List.range (k + 1)).foldl
        (fun a i => if bitAt (blen p) p i = 1 then a ^^^ bitAt (k + 1) s i else a) 0 := by
    rw [foldl_xor_filterMap, List.range_succ_eq_map, List.foldl_cons, List.foldl_map]
    have h00 : (if bitAt (blen p) p 0 = 1 then 0 ^^^ bitAt (k + 1) s 0 else 0)
        = bitAt (k + 1) s 0 := by
      simp [h0]
    rw [h00]
    apply foldl_congr_mem
    intro acc x _
    by_cases hc : bitAt (blen p) p (x + 1) = 1 <;> simp [hc]
  rw [hfb]

lemma fib_spec_fb_le_one (p s : Nat) : fib_spec_fb p s ≤ 1 := by
  unfold fib_spec_fb
  refine foldl_le_one _ _ ?_ 0 (by omega)
  intro a x ha
  by_cases hc : bitAt (blen p) p x = 1
  · simpa [hc] using xor_le_one _ _ ha (bitAt_le_one _ _ _)
  · simpa [hc] using ha

lemma fib_spec_step_lt (p s : Nat) (hp : 2 ≤ p) : fib_spec_step p s < 2 ^ cl p := by
  have hm1 := cl_pos p hp
  unfold fib_spec_step
  have hmem : ∀ x ∈ (List.range (cl p - 1)).map (fun i => bitAt (cl p) s (i + 1))
      ++ [fib_spec_fb p s], x ≤ 1 := by
    intro x hx
    rcases List.mem_append.mp hx with h | h
    · obtain ⟨i, _, rfl⟩ := List.mem_map.mp h
      exact bitAt_le_one _ _ _
    · simp only [List.mem_singleton] at h
      subst h
      exact fib_spec_fb_le_one p s
  have hlt := fromBits_lt _ hmem
  have hlen : ((List.range (cl p - 1)).map (fun i => bitAt (cl p) s (i + 1))
      ++ [fib_spec_fb p s]).length = cl p := by
    simp
    omega
  rwa [hlen] at hlt

/-! ### The Galois round agrees with the spec rule -/

lemma foldl_set_range' (g : Nat → Nat) (z : Nat) : ∀ (j K : Nat), j ≤ K →
    (List.range' 1 j).foldl (fun acc x => acc.set (x - 1) (g x)) (List.replicate (K + 1) z)
      = (List.range j).map (fun i => g (i + 1)) ++ List.replicate (K + 1 - j) z := by
  intro j
  induction j with
  | zero => intro K h; simp
  | succ j' ih =>
    intro K h
    rw [List.range'_concat, List.foldl_append, ih K (by omega)]
    simp only [List.foldl_cons, List.foldl_nil, Nat.one_mul]
    have hidx : 1 + j' - 1 = j' := by omega
    have harg : 1 + j' = j' + 1 := by omega
    rw [hidx, harg]
    have hrep : List.replicate (K + 1 - j') z = z :: List.replicate (K - j') z := by
      have hsplit : K + 1 - j' = (K - j') + 1 := by omega
      rw [hsplit, List.replicate_succ]
    rw [hrep, set_map_range_cons]
    rw [List.range_succ, List.map_append, List.append_assoc]
    have hfin : K + 1 - (j' + 1) = K - j' := by omega
    rw [hfin]
    rfl

lemma gal_fround_eq_spec (p s : Nat) (hs : s < 2 ^ blen p) :
    Galois_LFSR.fround p s = galois_spec_step p s := by
  have hm1 : 1 ≤ blen p := blen_pos p
  have hw : (toBits 0 p).length = blen p := by
    rw [length_toBits]
    omega
  have hpoly : toBits 0 p = (List.range (blen p)).map (bitAt (blen p) p) := by
    unfold toBits
    have hmx : max 0 (blen p) = blen p := by omega
    rw [hmx]
  have hstate : toBits (blen p) s = (List.range (blen p)).map (bitAt (blen p) s) :=
    toBits_of_lt _ _ hm1 hs
  obtain ⟨k, hk⟩ : ∃ k, blen p = k + 1 := ⟨blen p - 1, by omega⟩
  unfold Galois_LFSR.fround Galois_LFSR.gfeedback galois_spec_step
  rw [hw, hpoly, hstate, hk]
  simp only [Nat.add_sub_cancel]
  rw [foldl_set_range' _ _ k k le_rfl]
  have hone : k + 1 - k = 1 := by omega
  rw [hone, List.replicate_one, set_map_range_cons]
  have h0s : ((List.range (k + 1)).map (bitAt (k + 1) s)).getD 0 0 = bitAt (k + 1) s 0 :=
    getD_map_range _ _ _ (by omega)
  rw [h0s]
  congr 1
  congr 1
  apply List.map_congr_left
  intro i hi
  have hik : i < k := List.mem_range.mp hi
  have hp1 : ((List.range (k + 1)).map (bitAt (k + 1) p)).getD (i + 1) 0
      = bitAt (k + 1) p (i + 1) := getD_map_range _ _ _ (by omega)
  have hs1 : ((List.range (k + 1)).map (bitAt (k + 1) s)).getD (i + 1) 0
      = bitAt (k + 1) s (i + 1) := getD_map_range _ _ _ (by omega)
  rw [hp1, hs1]
  by_cases hc : bitAt (k + 1) p (i + 1) = 1
  · simp [hc, Nat.xor_comm]
  · simp [hc]

lemma galois_spec_step_lt (p s : Nat) : galois_spec_step p s < 2 ^ blen p := by
  have hm1 := blen_pos p
  unfold galois_spec_step
  have hmem : ∀ x ∈ (List.range (blen p - 1)).map
      (fun j => if bitAt (blen p) p (j + 1) = 1
                then bitAt (blen p) s (j + 1) ^^^ bitAt (blen p) s 0
                else bitAt (blen p) s (j + 1)) ++ [bitAt (blen p) s 0], x ≤ 1 := by
    intro x hx
    rcases List.mem_append.mp hx with h | h
    · obtain ⟨j, _, rfl⟩ := List.mem_map.mp h
      by_cases hc : bitAt (blen p) p (j + 1) = 1
      · simpa [hc] using xor_le_one _ _ (bitAt_le_one _ _ _) (bitAt_le_one _ _ _)
      · simpa [hc] using bitAt_le_one _ _ _
    · simp only [List.mem_singleton] at h
      subst h
      exact bitAt_le_one _ _ _
  have hlt := fromBits_lt _ hmem
  have hlen : ((List.range (blen p - 1)).map
      (fun j => if bitAt (blen p) p (j + 1) = 1
                then bitAt (blen p) s (j + 1) ^^^ bitAt (blen p) s 0
                else bitAt (blen p) s (j + 1)) ++ [bitAt (blen p) s 0]).length = blen p := by
    simp
    omega
  rwa [hlen] at hlt

/-! ### Iteration primitives: cycle is iterated next -/

lemma fib_cycle_zero (r : LFSR) : r.cycle 0 = some r := rfl

lemma fib_cycle_succ (r : LFSR) (n : Nat) :
    r.cycle (n + 1) = (r.cycle n).bind LFSR.next := by
  unfold LFSR.cycle
  rw [List.range_succ, List.foldl_append]
  rfl

lemma fib_nextN_snoc : ∀ (n : Nat) (r : LFSR),
    (LFSR.nextN n r).bind LFSR.next = LFSR.nextN (n + 1) r := by
  intro n
  induction n with
  | zero =>
    intro r
    show (LFSR.next r) = (LFSR.next r).bind (LFSR.nextN 0)
    cases LFSR.next r <;> rfl
  | succ n ih =>
    intro r
    show ((LFSR.next r).bind (LFSR.nextN n)).bind LFSR.next
      = (LFSR.next r).bind (LFSR.nextN (n + 1))
    cases hx : LFSR.next r with
    | none => rfl
    | some r1 =>
      show (LFSR.nextN n r1).bind LFSR.next = LFSR.nextN (n + 1) r1
      exact ih r1

lemma fib_cycle_eq_nextN (r : LFSR) : ∀ n : Nat, r.cycle n = LFSR.nextN n r := by
  intro n
  induction n with
  | zero => rfl
  | succ n ih => rw [fib_cycle_succ, ih, fib_nextN_snoc]

lemma fib_next_frame (r r' : LFSR) (h : r.next = some r') :
    r'.poly = r.poly ∧ r'.state_init = r.state_init := by
  unfold LFSR.next at h
  cases hf : LFSR.fround r.poly r.state with
  | none => rw [hf] at h; simp at h
  | some s =>
    rw [hf] at h
    simp only [Option.map_some', Option.some.injEq] at h
    rw [← h]
    exact ⟨rfl, rfl⟩

lemma fib_nextN_frame : ∀ (n : Nat) (r r' : LFSR), LFSR.nextN n r = some r' →
    r'.poly = r.poly ∧ r'.state_init = r.state_init := by
  intro n
  induction n with
  | zero =>
    intro r r' h
    have : r = r' := by simpa [LFSR.nextN] using h
    rw [this]
    exact ⟨rfl, rfl⟩
  | succ n ih =>
    intro r r' h
    rw [show LFSR.nextN (n + 1) r = (LFSR.next r).bind (LFSR.nextN n) from rfl] at h
    cases hx : LFSR.next r with
    | none => rw [hx] at h; simp at h
    | some r1 =>
      rw [hx] at h
      simp only [Option.some_bind] at h
      obtain ⟨h1, h2⟩ := ih r1 r' h
      obtain ⟨h3, h4⟩ := fib_next_frame r r1 hx
      exact ⟨h1.trans h3, h2.trans h4⟩

lemma fib_cycle_frame (r r' : LFSR) (n : Nat) (h : r.cycle n = some r') :
    r'.poly = r.poly ∧ r'.state_init = r.state_init := by
  rw [fib_cycle_eq_nextN] at h
  exact fib_nextN_frame n r r' h

lemma gal_cycle_zero (r : Galois_LFSR) : r.cycle 0 = r := rfl

lemma gal_cycle_succ (r : Galois_LFSR) (n : Nat) :
    r.cycle (n + 1) = (r.cycle n).next := by
  unfold Galois_LFSR.cycle
  rw [List.range_succ, List.foldl_append]
  rfl

lemma gal_nextN_snoc : ∀ (n : Nat) (r : Galois_LFSR),
    (Galois_LFSR.nextN n r).next = Galois_LFSR.nextN (n + 1) r := by
  intro n
  induction n with
  | zero => intro r; rfl
  | succ n ih =>
    intro r
    show (Galois_LFSR.nextN n r.next).next = Galois_LFSR.nextN (n + 1) r.next
    exact ih r.next

lemma gal_cycle_eq_nextN (r : Galois_LFSR) : ∀ n : Nat,
    r.cycle n = Galois_LFSR.nextN n r := by
  intro n
  induction n with
  | zero => rfl
  | succ n ih => rw [gal_cycle_succ, ih, gal_nextN_snoc]

lemma gal_next_frame (r : Galois_LFSR) :
    r.next.poly = r.poly ∧ r.next.state_init = r.state_init := ⟨rfl, rfl⟩

lemma gal_cycle_frame (r : Galois_LFSR) (n : Nat) :
    (r.cycle n).poly = r.poly ∧ (r.cycle n).state_init = r.state_init := by
  induction n with
  | zero => exact ⟨rfl, rfl⟩
  | succ n ih =>
    rw [gal_cycle_succ]
    exact ⟨ih.1, ih.2⟩

/-! ### State iteration and the state tables -/

lemma fib_iter_lt (p : Nat) (hp : 2 ≤ p) : ∀ (n s : Nat), s < 2 ^ cl p →
    fib_iter p n s < 2 ^ cl p := by
  intro n
  induction n with
  | zero => intro s hs; exact hs
  | succ n ih =>
    intro s hs
    show fib_iter p n ((LFSR.fround p s).getD 0) < 2 ^ cl p
    rw [fib_fround_eq_spec p s hp hs]
    exact ih _ (fib_spec_step_lt p s hp)

lemma fib_iter_succ_right (p : Nat) (hp : 2 ≤ p) : ∀ (i s : Nat), s < 2 ^ cl p →
    fib_iter p (i + 1) s = fib_spec_step p (fib_iter p i s) := by
  intro i
  induction i with
  | zero =>
    intro s hs
    show (LFSR.fround p s).getD 0 = fib_spec_step p s
    rw [fib_fround_eq_spec p s hp hs]
    rfl
  | succ i ih =>
    intro s hs
    have hr : (LFSR.fround p s).getD 0 = fib_spec_step p s := by
      rw [fib_fround_eq_spec p s hp hs]
      rfl
    show fib_iter p (i + 1) ((LFSR.fround p s).getD 0)
      = fib_spec_step p (fib_iter p i ((LFSR.fround p s).getD 0))
    rw [hr]
    exact ih (fib_spec_step p s) (fib_spec_step_lt p s hp)

lemma fib_iter_step (p : Nat) (hp : 2 ≤ p) (s : Nat) (hs : s < 2 ^ cl p) (i : Nat) :
    LFSR.fround p (fib_iter p i s) = some (fib_iter p (i + 1) s) := by
  rw [fib_fround_eq_spec p _ hp (fib_iter_lt p hp i s hs),
    fib_iter_succ_right p hp i s hs]

lemma fib_table_aux_eq (p : Nat) (hp : 2 ≤ p) : ∀ (c idx s : Nat), s < 2 ^ cl p →
    LFSR.table_aux p idx c s = some ((List.range c).map
      (fun i => (idx + i, fib_iter p i s, toBits (cl p) (fib_iter p i s)))) := by
  intro c
  induction c with
  | zero => intro idx s _; rfl
  | succ c ih =>
    intro idx s hs
    have hr := fib_fround_eq_spec p s hp hs
    have hlt := fib_spec_step_lt p s hp
    show (match LFSR.fround p s with
      | none => none
      | some s2 =>
          (LFSR.table_aux p (idx + 1) c s2).map
            (fun t => (idx, s, toBits (cl p) s) :: t)) = _
    rw [hr]
    simp only []
    rw [ih (idx + 1) (fib_spec_step p s) hlt]
    simp only [Option.map_some', Option.some.injEq]
    have hstep : ∀ i : Nat, fib_iter p (i + 1) s = fib_iter p i (fib_spec_step p s) := by
      intro i
      show fib_iter p i ((LFSR.fround p s).getD 0) = _
      rw [hr]
      rfl
    rw [List.range_succ_eq_map, List.map_cons, List.map_map]
    congr 1
    apply List.map_congr_left
    intro i _
    show ((idx + 1) + i, fib_iter p i (fib_spec_step p s),
        toBits (cl p) (fib_iter p i (fib_spec_step p s)))
      = (idx + (i + 1), fib_iter p (i + 1) s, toBits (cl p) (fib_iter p (i + 1) s))
    rw [hstep i]
    refine congrArg₂ Prod.mk (by omega) rfl

lemma gal_iter_succ_right (p : Nat) : ∀ (i s : Nat),
    gal_iter p (i + 1) s = Galois_LFSR.fround p (gal_iter p i s) := by
  intro i
  induction i with
  | zero => intro s; rfl
  | succ i ih =>
    intro s
    show gal_iter p (i + 1) (Galois_LFSR.fround p s)
      = Galois_LFSR.fround p (gal_iter p i (Galois_LFSR.fround p s))
    exact ih (Galois_LFSR.fround p s)

lemma gal_iter_lt (p : Nat) : ∀ (n s : Nat), s < 2 ^ blen p →
    gal_iter p n s < 2 ^ blen p := by
  intro n
  induction n with
  | zero => intro s hs; exact hs
  | succ n ih =>
    intro s hs
    show gal_iter p n (Galois_LFSR.fround p s) < 2 ^ blen p
    rw [gal_fround_eq_spec p s hs]
    exact ih _ (galois_spec_step_lt p s)

lemma gal_table_aux_eq (p : Nat) : ∀ (c idx s : Nat),
    Galois_LFSR.table_aux p idx c s = (List.range c).map
      (fun i => (idx + i, gal_iter p i s,
        toBits (toBits 0 p).length (gal_iter p i s))) := by
  intro c
  induction c with
  | zero => intro idx s; rfl
  | succ c ih =>
    intro idx s
    show (idx, s, toBits (toBits 0 p).length s) ::
        Galois_LFSR.table_aux p (idx + 1) c (Galois_LFSR.fround p s) = _
    rw [ih (idx + 1) (Galois_LFSR.fround p s)]
    rw [List.range_succ_eq_map, List.map_cons, List.map_map]
    congr 1
    apply List.map_congr_left
    intro i _
    show ((idx + 1) + i, gal_iter p i (Galois_LFSR.fround p s),
        toBits (toBits 0 p).length (gal_iter p i (Galois_LFSR.fround p s)))
      = (idx + (i + 1), gal_iter p (i + 1) s, toBits (toBits 0 p).length (gal_iter p (i + 1) s))
    have hstep : gal_iter p (i + 1) s = gal_iter p i (Galois_LFSR.fround p s) := rfl
    rw [hstep]
    refine congrArg₂ Prod.mk (by omega) rfl

/-! ### Concatenation of registers -/

lemma concat_bits_length {α : Type} (w v : α → Nat) :
    ∀ (l : List α), (∀ r ∈ l, 1 ≤ w r ∧ v r < 2 ^ w r) → ∀ (acc : List Nat),
      (l.foldl (fun a r => a ++ toBits (w r) (v r)) acc).length
        = acc.length + (l.map w).sum := by
  intro l
  induction l with
  | nil => intro _ acc; simp
  | cons r t ih =>
    intro h acc
    have hr := h r (List.mem_cons_self r t)
    have hlen : (toBits (w r) (v r)).length = w r := by
      rw [length_toBits, Nat.max_eq_left (blen_le_of_lt_pow _ _ hr.1 hr.2)]
    show (t.foldl _ (acc ++ toBits (w r) (v r))).length = _
    rw [ih (fun x hx => h x (List.mem_cons_of_mem r hx)) (acc ++ toBits (w r) (v r))]
    simp only [List.length_append, hlen, List.map_cons, List.sum_cons]
    omega

lemma concat_bits_val {α : Type} (w v : α → Nat) :
    ∀ (l : List α), (∀ r ∈ l, 1 ≤ w r ∧ v r < 2 ^ w r) → ∀ (acc : List Nat),
      fromBits (l.foldl (fun a r => a ++ toBits (w r) (v r)) acc)
        = l.foldl (fun a r => a * 2 ^ w r + v r) (fromBits acc) := by
  intro l
  induction l with
  | nil => intro _ acc; rfl
  | cons r t ih =>
    intro h acc
    have hr := h r (List.mem_cons_self r t)
    have hlen : (toBits (w r) (v r)).length = w r := by
      rw [length_toBits, Nat.max_eq_left (blen_le_of_lt_pow _ _ hr.1 hr.2)]
    show fromBits (t.foldl _ (acc ++ toBits (w r) (v r))) = _
    rw [ih (fun x hx => h x (List.mem_cons_of_mem r hx)) (acc ++ toBits (w r) (v r)),
      fromBits_append, hlen, fromBits_toBits]
    rfl

lemma concat_val_lt {α : Type} (w v : α → Nat) :
    ∀ (l : List α), (∀ r ∈ l, v r < 2 ^ w r) → ∀ (acc B : Nat), acc < B →
      l.foldl (fun a r => a * 2 ^ w r + v r) acc < B * 2 ^ (l.map w).sum := by
  intro l
  induction l with
  | nil => intro _ acc B h; simpa using h
  | cons r t ih =>
    intro h acc B hab
    have hv := h r (List.mem_cons_self r t)
    have hacc : acc * 2 ^ w r + v r < B * 2 ^ w r := by
      have h1 : acc + 1 ≤ B := hab
      have h2 : (acc + 1) * 2 ^ w r ≤ B * 2 ^ w r :=
        Nat.mul_le_mul_right _ h1
      have h3 : acc * 2 ^ w r + v r < (acc + 1) * 2 ^ w r := by
        have : (acc + 1) * 2 ^ w r = acc * 2 ^ w r + 2 ^ w r := by ring
        omega
      omega
    have hrec := ih (fun x hx => h x (List.mem_cons_of_mem r hx)) _ _ hacc
    show t.foldl _ (acc * 2 ^ w r + v r) < B * 2 ^ ((r :: t).map w).sum
    simp only [List.map_cons, List.sum_cons, pow_add, ← Nat.mul_assoc]
    exact hrec

lemma concat_val_le {α : Type} (w v : α → Nat) :
    ∀ (l : List α) (acc : Nat),
      acc * 2 ^ (l.map w).sum ≤ l.foldl (fun a r => a * 2 ^ w r + v r) acc := by
  intro l
  induction l with
  | nil => intro acc; simp
  | cons r t ih =>
    intro acc
    show acc * 2 ^ ((r :: t).map w).sum ≤ t.foldl _ (acc * 2 ^ w r + v r)
    have h1 : acc * 2 ^ ((r :: t).map w).sum
        = (acc * 2 ^ w r) * 2 ^ (t.map w).sum := by
      simp only [List.map_cons, List.sum_cons, pow_add]
      ring
    have h2 : (acc * 2 ^ w r) * 2 ^ (t.map w).sum
        ≤ (acc * 2 ^ w r + v r) * 2 ^ (t.map w).sum :=
      Nat.mul_le_mul_right _ (Nat.le_add_right _ _)
    calc acc * 2 ^ ((r :: t).map w).sum
    _ = (acc * 2 ^ w r) * 2 ^ (t.map w).sum := h1
    _ ≤ (acc * 2 ^ w r + v r) * 2 ^ (t.map w).sum := h2
    _ ≤ t.foldl _ (acc * 2 ^ w r + v r) := ih _

lemma gal_field_order_eq (r : Galois_LFSR) : r.field_order = blen r.poly := by
  unfold Galois_LFSR.field_order
  rw [length_toBits]
  omega

lemma fib_from_lfsrs_spec (r0 : LFSR) (t : List LFSR)
    (h : ∀ r ∈ r0 :: t, 2 ≤ r.poly ∧ 2 ^ (blen r.poly - 1) < r.poly
          ∧ r.state_init < 2 ^ LFSR.field_order r) :
    LFSR.from_lfsrs (r0 :: t) = some (LFSR.mk'
        ((r0 :: t).foldl (fun a r => a * 2 ^ LFSR.field_order r + r.poly) 0)
        ((r0 :: t).foldl (fun a r => a * 2 ^ LFSR.field_order r + r.state_init) 0))
      ∧ cl ((r0 :: t).foldl (fun a r => a * 2 ^ LFSR.field_order r + r.poly) 0)
          = ((r0 :: t).map LFSR.field_order).sum := by
  have hfo : ∀ r ∈ r0 :: t, LFSR.field_order r = blen r.poly := by
    intro r hr
    exact cl_eq_blen_of_not_pow r.poly (h r hr).1 (h r hr).2.1
  have hpin : ∀ r ∈ r0 :: t, 1 ≤ LFSR.field_order r ∧ r.poly < 2 ^ LFSR.field_order r := by
    intro r hr
    constructor
    · exact cl_pos r.poly (h r hr).1
    · rw [hfo r hr]
      exact lt_two_pow_blen r.poly
  have hsin : ∀ r ∈ r0 :: t, 1 ≤ LFSR.field_order r
      ∧ r.state_init < 2 ^ LFSR.field_order r :=
    fun r hr => ⟨(hpin r hr).1, (h r hr).2.2⟩
  have hPval := concat_bits_val LFSR.field_order LFSR.poly (r0 :: t) hpin []
  have hSval := concat_bits_val LFSR.field_order LFSR.state_init (r0 :: t) hsin []
  -- bounds on the concatenated polynomial value
  have hVsplit : (r0 :: t).foldl (fun a r => a * 2 ^ LFSR.field_order r + r.poly) 0
      = t.foldl (fun a r => a * 2 ^ LFSR.field_order r + r.poly) r0.poly := by
    simp only [List.foldl_cons, Nat.zero_mul, Nat.zero_add]
  have hSsplit : ((r0 :: t).map LFSR.field_order).sum
      = LFSR.field_order r0 + (t.map LFSR.field_order).sum := by
    simp
  have hlow : r0.poly * 2 ^ (t.map LFSR.field_order).sum
      ≤ t.foldl (fun a r => a * 2 ^ LFSR.field_order r + r.poly) r0.poly :=
    concat_val_le LFSR.field_order LFSR.poly t r0.poly
  have hp0 : 2 ^ (LFSR.field_order r0 - 1) < r0.poly := by
    rw [hfo r0 (List.mem_cons_self r0 t)]
    exact (h r0 (List.mem_cons_self r0 t)).2.1
  have hupper := concat_val_lt LFSR.field_order LFSR.poly (r0 :: t)
    (fun r hr => (hpin r hr).2) 0 1 (by omega)
  have hw0 : 1 ≤ LFSR.field_order r0 := (hpin r0 (List.mem_cons_self r0 t)).1
  have hexp : ((r0 :: t).map LFSR.field_order).sum - 1
      = (LFSR.field_order r0 - 1) + (t.map LFSR.field_order).sum := by
    rw [hSsplit]
    omega
  have hVlow : 2 ^ (((r0 :: t).map LFSR.field_order).sum - 1)
      < (r0 :: t).foldl (fun a r => a * 2 ^ LFSR.field_order r + r.poly) 0 := by
    rw [hVsplit, hexp, pow_add]
    calc 2 ^ (LFSR.field_order r0 - 1) * 2 ^ (t.map LFSR.field_order).sum
    _ < r0.poly * 2 ^ (t.map LFSR.field_order).sum :=
        (Nat.mul_lt_mul_right (Nat.pos_pow_of_pos _ (by omega))).mpr hp0
    _ ≤ _ := hlow
  have hVup : (r0 :: t).foldl (fun a r => a * 2 ^ LFSR.field_order r + r.poly) 0
      < 2 ^ ((r0 :: t).map LFSR.field_order).sum := by
    simpa using hupper
  have hone : 1 ≤ 2 ^ (((r0 :: t).map LFSR.field_order).sum - 1) := Nat.one_le_two_pow
  have hV2 : 2 ≤ (r0 :: t).foldl (fun a r => a * 2 ^ LFSR.field_order r + r.poly) 0 := by
    omega
  have hcl : cl ((r0 :: t).foldl (fun a r => a * 2 ^ LFSR.field_order r + r.poly) 0)
      = ((r0 :: t).map LFSR.field_order).sum := by
    have hns : ¬ (r0 :: t).foldl (fun a r => a * 2 ^ LFSR.field_order r + r.poly) 0 ≤ 1 := by
      omega
    simp only [cl, hns, if_false]
    apply blen_unique
    · rw [hSsplit]
      omega
    · omega
    · omega
  refine ⟨?_, hcl⟩
  show LFSR.build
      (fromBits ((r0 :: t).foldl (fun acc r => acc ++ toBits r.field_order r.poly) []))
      (fromBits ((r0 :: t).foldl
        (fun acc r => acc ++ toBits r.field_order r.state_init) [])) = _
  rw [hPval, hSval]
  unfold LFSR.build
  have hz : (r0 :: t).foldl (fun a r => a * 2 ^ LFSR.field_order r + r.poly)
      (fromBits []) ≠ 0 := by
    have hfb : fromBits ([] : List Nat) = 0 := rfl
    rw [hfb]
    omega
  rw [if_neg hz]
  rfl

lemma gal_from_lfsrs_spec (g0 : Galois_LFSR) (gt : List Galois_LFSR)
    (h0 : 1 ≤ g0.poly)
    (hst : ∀ g ∈ g0 :: gt, g.state_init < 2 ^ Galois_LFSR.field_order g) :
    Galois_LFSR.from_lfsrs (g0 :: gt) = some (Galois_LFSR.mk'
        ((g0 :: gt).foldl (fun a g => a * 2 ^ Galois_LFSR.field_order g + g.poly) 0)
        ((g0 :: gt).foldl (fun a g => a * 2 ^ Galois_LFSR.field_order g + g.state_init) 0))
      ∧ blen ((g0 :: gt).foldl (fun a g => a * 2 ^ Galois_LFSR.field_order g + g.poly) 0)
          = ((g0 :: gt).map Galois_LFSR.field_order).sum := by
  have hpin : ∀ g ∈ g0 :: gt, 1 ≤ Galois_LFSR.field_order g
      ∧ g.poly < 2 ^ Galois_LFSR.field_order g := by
    intro g _
    rw [gal_field_order_eq g]
    exact ⟨blen_pos _, lt_two_pow_blen _⟩
  have hsin : ∀ g ∈ g0 :: gt, 1 ≤ Galois_LFSR.field_order g
      ∧ g.state_init < 2 ^ Galois_LFSR.field_order g :=
    fun g hg => ⟨(hpin g hg).1, hst g hg⟩
  have hPval := concat_bits_val Galois_LFSR.field_order Galois_LFSR.poly (g0 :: gt) hpin []
  have hSval := concat_bits_val Galois_LFSR.field_order Galois_LFSR.state_init
    (g0 :: gt) hsin []
  have hVsplit : (g0 :: gt).foldl (fun a g => a * 2 ^ Galois_LFSR.field_order g + g.poly) 0
      = gt.foldl (fun a g => a * 2 ^ Galois_LFSR.field_order g + g.poly) g0.poly := by
    simp only [List.foldl_cons, Nat.zero_mul, Nat.zero_add]
  have hSsplit : ((g0 :: gt).map Galois_LFSR.field_order).sum
      = Galois_LFSR.field_order g0 + (gt.map Galois_LFSR.field_order).sum := by
    simp
  have hlow : g0.poly * 2 ^ (gt.map Galois_LFSR.field_order).sum
      ≤ gt.foldl (fun a g => a * 2 ^ Galois_LFSR.field_order g + g.poly) g0.poly :=
    concat_val_le Galois_LFSR.field_order Galois_LFSR.poly gt g0.poly
  have hp0 : 2 ^ (Galois_LFSR.field_order g0 - 1) ≤ g0.poly := by
    rw [gal_field_order_eq g0]
    exact two_pow_blen_pred_le g0.poly h0
  have hupper := concat_val_lt Galois_LFSR.field_order Galois_LFSR.poly (g0 :: gt)
    (fun g hg => (hpin g hg).2) 0 1 (by omega)
  have hw0 : 1 ≤ Galois_LFSR.field_order g0 := (hpin g0 (List.mem_cons_self g0 gt)).1
  have hexp : ((g0 :: gt).map Galois_LFSR.field_order).sum - 1
      = (Galois_LFSR.field_order g0 - 1) + (gt.map Galois_LFSR.field_order).sum := by
    rw [hSsplit]
    omega
  have hVlow : 2 ^ (((g0 :: gt).map Galois_LFSR.field_order).sum - 1)
      ≤ (g0 :: gt).foldl (fun a g => a * 2 ^ Galois_LFSR.field_order g + g.poly) 0 := by
    rw [hVsplit, hexp, pow_add]
    calc 2 ^ (Galois_LFSR.field_order g0 - 1) * 2 ^ (gt.map Galois_LFSR.field_order).sum
    _ ≤ g0.poly * 2 ^ (gt.map Galois_LFSR.field_order).sum :=
        Nat.mul_le_mul_right _ hp0
    _ ≤ _ := hlow
  have hVup : (g0 :: gt).foldl (fun a g => a * 2 ^ Galois_LFSR.field_order g + g.poly) 0
      < 2 ^ ((g0 :: gt).map Galois_LFSR.field_order).sum := by
    simpa using hupper
  have hblen : blen ((g0 :: gt).foldl (fun a g => a * 2 ^ Galois_LFSR.field_order g + g.poly) 0)
      = ((g0 :: gt).map Galois_LFSR.field_order).sum :=
    blen_unique _ _ (by rw [hSsplit]; omega) hVlow hVup
  refine ⟨?_, hblen⟩
  show some (Galois_LFSR.mk'
      (fromBits ((g0 :: gt).foldl (fun acc g => acc ++ toBits g.field_order g.poly) []))
      (fromBits ((g0 :: gt).foldl
        (fun acc g => acc ++ toBits g.field_order g.state_init) []))) = _
  rw [hPval, hSval]
  rfl

/-! ### Register-level invariants and state-table descriptions -/

lemma fib_nextN_state_lt : ∀ (n : Nat) (r r' : LFSR), 2 ≤ r.poly →
    r.state < 2 ^ cl r.poly → LFSR.nextN n r = some r' → r'.state < 2 ^ cl r'.poly := by
  intro n
  induction n with
  | zero =>
    intro r r' _ hs h
    have he : r = r' := by simpa [LFSR.nextN] using h
    rw [← he]
    exact hs
  | succ n ih =>
    intro r r' hp hs h
    have hr := fib_fround_eq_spec r.poly r.state hp hs
    rw [show LFSR.nextN (n + 1) r = (LFSR.next r).bind (LFSR.nextN n) from rfl] at h
    unfold LFSR.next at h
    rw [hr] at h
    simp only [Option.map_some', Option.some_bind] at h
    exact ih { r with state := fib_spec_step r.poly r.state } r' hp
      (fib_spec_step_lt r.poly r.state hp) h

lemma gal_nextN_state_lt : ∀ (n : Nat) (r : Galois_LFSR),
    r.state < 2 ^ blen r.poly →
    (Galois_LFSR.nextN n r).state < 2 ^ blen (Galois_LFSR.nextN n r).poly := by
  intro n
  induction n with
  | zero => intro r hs; exact hs
  | succ n ih =>
    intro r hs
    show (Galois_LFSR.nextN n r.next).state < 2 ^ blen (Galois_LFSR.nextN n r.next).poly
    apply ih
    show Galois_LFSR.fround r.poly r.state < 2 ^ blen r.poly
    rw [gal_fround_eq_spec r.poly r.state hs]
    exact galois_spec_step_lt r.poly r.state

lemma fib_state_table_spec (fr : LFSR) (hp : 2 ≤ fr.poly)
    (hfs : fr.state < 2 ^ fr.field_order) :
    ∃ t : List (Nat × Nat × List Nat),
      fr.state_table = some (t, LFSR.mk' fr.poly fr.state_init)
      ∧ t.length = 2 ^ fr.field_order
      ∧ t.get? 0 = some (0, fr.state, toBits fr.field_order fr.state)
      ∧ (∀ i, i < 2 ^ fr.field_order → t.get? i = some (i, fib_iter fr.poly i fr.state,
          toBits fr.field_order (fib_iter fr.poly i fr.state)))
      ∧ (∀ i si si' bi bi', t.get? i = some (i, si, bi)
          → t.get? (i + 1) = some (i + 1, si', bi')
          → LFSR.fround fr.poly si = some si') := by
  have htab := fib_table_aux_eq fr.poly hp (2 ^ fr.field_order) 0 fr.state hfs
  have hT : (List.range (2 ^ fr.field_order)).map
        (fun i => (0 + i, fib_iter fr.poly i fr.state,
          toBits (cl fr.poly) (fib_iter fr.poly i fr.state)))
      = (List.range (2 ^ fr.field_order)).map
        (fun i => (i, fib_iter fr.poly i fr.state,
          toBits fr.field_order (fib_iter fr.poly i fr.state))) :=
    List.map_congr_left (fun i _ => by simp only [Nat.zero_add]; rfl)
  rw [hT] at htab
  refine ⟨(List.range (2 ^ fr.field_order)).map
      (fun i => (i, fib_iter fr.poly i fr.state,
        toBits fr.field_order (fib_iter fr.poly i fr.state))), ?_, ?_, ?_, ?_, ?_⟩
  · show (LFSR.table_aux fr.poly 0 (2 ^ fr.field_order) fr.state).map
        (fun t => (t, fr.reset)) = _
    rw [htab]
    rfl
  · simp
  · have h0 : 0 < 2 ^ fr.field_order := Nat.pos_pow_of_pos _ (by omega)
    rw [List.get?_map, List.get?_range h0]
    rfl
  · intro i hi
    rw [List.get?_map, List.get?_range hi]
    rfl
  · intro i si si' bi bi' h1 h2
    have hi1 : i + 1 < 2 ^ fr.field_order := by
      by_contra hge
      have hnone : ((List.range (2 ^ fr.field_order)).map
          (fun i => (i, fib_iter fr.poly i fr.state,
            toBits fr.field_order (fib_iter fr.poly i fr.state)))).get? (i + 1) = none := by
        apply List.get?_eq_none.mpr
        simp
        omega
      rw [hnone] at h2
      exact Option.noConfusion h2
    have hi0 : i < 2 ^ fr.field_order := by omega
    rw [List.get?_map, List.get?_range hi0] at h1
    rw [List.get?_map, List.get?_range hi1] at h2
    simp only [Option.map_some', Option.some.injEq, Prod.mk.injEq] at h1 h2
    rw [← h1.2.1, ← h2.2.1]
    exact fib_iter_step fr.poly hp fr.state hfs i

lemma gal_state_table_spec (gr : Galois_LFSR) :
    ∃ t : List (Nat × Nat × List Nat),
      gr.state_table = (t, Galois_LFSR.mk' gr.poly gr.state_init)
      ∧ t.length = 2 ^ gr.field_order
      ∧ t.get? 0 = some (0, gr.state, toBits gr.field_order gr.state)
      ∧ (∀ i, i < 2 ^ gr.field_order → t.get? i = some (i, gal_iter gr.poly i gr.state,
          toBits gr.field_order (gal_iter gr.poly i gr.state)))
      ∧ (∀ i si si' bi bi', t.get? i = some (i, si, bi)
          → t.get? (i + 1) = some (i + 1, si', bi')
          → Galois_LFSR.fround gr.poly si = si') := by
  have htab := gal_table_aux_eq gr.poly (2 ^ gr.field_order) 0 gr.state
  have hT : (List.range (2 ^ gr.field_order)).map
        (fun i => (0 + i, gal_iter gr.poly i gr.state,
          toBits (toBits 0 gr.poly).length (gal_iter gr.poly i gr.state)))
      = (List.range (2 ^ gr.field_order)).map
        (fun i => (i, gal_iter gr.poly i gr.state,
          toBits gr.field_order (gal_iter gr.poly i gr.state))) :=
    List.map_congr_left (fun i _ => by simp only [Nat.zero_add]; rfl)
  rw [hT] at htab
  refine ⟨(List.range (2 ^ gr.field_order)).map
      (fun i => (i, gal_iter gr.poly i gr.state,
        toBits gr.field_order (gal_iter gr.poly i gr.state))), ?_, ?_, ?_, ?_, ?_⟩
  · show (Galois_LFSR.table_aux gr.poly 0 (2 ^ gr.field_order) gr.state, gr.reset) = _
    rw [htab]
    rfl
  · simp
  · have h0 : 0 < 2 ^ gr.field_order := Nat.pos_pow_of_pos _ (by omega)
    rw [List.get?_map, List.get?_range h0]
    rfl
  · intro i hi
    rw [List.get?_map, List.get?_range hi]
    rfl
  · intro i si si' bi bi' h1 h2
    have hi1 : i + 1 < 2 ^ gr.field_order := by
      by_contra hge
      have hnone : ((List.range (2 ^ gr.field_order)).map
          (fun i => (i, gal_iter gr.poly i gr.state,
            toBits gr.field_order (gal_iter gr.poly i gr.state)))).get? (i + 1) = none := by
        apply List.get?_eq_none.mpr
        simp
        omega
      rw [hnone] at h2
      exact Option.noConfusion h2
    have hi0 : i < 2 ^ gr.field_order := by omega
    rw [List.get?_map, List.get?_range hi0] at h1
    rw [List.get?_map, List.get?_range hi1] at h2
    simp only [Option.map_some', Option.some.injEq, Prod.mk.injEq] at h1 h2
    rw [← h1.2.1, ← h2.2.1]
    exact (gal_iter_succ_right gr.poly i gr.state).symm

/-! ### The claims -/

/-- C1 (code bug): under the field order the spec intends — the exact
ceiling of log2 of section 4.1, `cl` — the Fibonacci `next` returns,
for every polynomial ≥ 2 and every state `s < 2 ^ field_order` (states
are naturals, so `0 ≤ s` holds throughout), exactly the state given by
the one-step rule of spec section 4.2: XOR of the state bits at the tap
positions of the polynomial's minimal binary representation, shift,
feedback entering at position `field_order - 1`, reread
most-significant-first, a pure function of state and taps; the witness
decides the section 8 example `poly = 0b1011`, `state = 0b0001`.  The
program itself computes the field order in IEEE doubles and so violates
this universally quantified rule at the polynomials where the float
ceiling deviates: at `2 ^ 51 - 1` CPython yields width 52 against bit
length 51, `poly_str` gains a leading zero pad, and the feedback taps
`s[1..51]` instead of the minimal-representation taps `s[0..50]` the
rule demands. -/
theorem fib_next_matches_spec_rule (r : LFSR) (hp : 2 ≤ r.poly)
    (hs : r.state < 2 ^ r.field_order) :
    r.next = some { r with state := fib_spec_step r.poly r.state } := by
  unfold LFSR.next
  rw [fib_fround_eq_spec r.poly r.state hp hs]
  rfl

/-- Witness for C1 at the section 8 Fibonacci example: polynomial
`0b1011`, state `0b0001`; the next state is `0b0011 = 3`. -/
theorem fib_next_matches_spec_rule_witness :
    2 ≤ (LFSR.mk' 11 1).poly
      ∧ (LFSR.mk' 11 1).state < 2 ^ (LFSR.mk' 11 1).field_order
      ∧ (LFSR.mk' 11 1).next = some { LFSR.mk' 11 1 with state := fib_spec_step 11 1 }
      ∧ fib_spec_step 11 1 = 3 :=
  ⟨by decide, by decide,
    fib_next_matches_spec_rule (LFSR.mk' 11 1) (by decide) (by decide), by decide⟩

/-- C2: For the Galois register with any polynomial ≥ 1 and any state
`s < 2 ^ field_order`, `next` returns exactly the state given by the
one-step rule of spec section 4.3, in which tap 0 is never consulted;
the witness decides the section 8 example `poly = 0b10011`,
`state = 0b00001`. -/
theorem galois_next_matches_spec_rule (r : Galois_LFSR) (_hp : 1 ≤ r.poly)
    (hs : r.state < 2 ^ r.field_order) :
    r.next = { r with state := galois_spec_step r.poly r.state } := by
  rw [gal_field_order_eq r] at hs
  unfold Galois_LFSR.next
  rw [gal_fround_eq_spec r.poly r.state hs]

/-- Witness for C2 at the section 8 Galois example: polynomial
`0b10011`, state `0b00001`; the next state is `0b00010 = 2`. -/
theorem galois_next_matches_spec_rule_witness :
    1 ≤ (Galois_LFSR.mk' 19 1).poly
      ∧ (Galois_LFSR.mk' 19 1).state < 2 ^ (Galois_LFSR.mk' 19 1).field_order
      ∧ (Galois_LFSR.mk' 19 1).next
          = { Galois_LFSR.mk' 19 1 with state := galois_spec_step 19 1 }
      ∧ galois_spec_step 19 1 = 2 :=
  ⟨by decide, by decide,
    galois_next_matches_spec_rule (Galois_LFSR.mk' 19 1) (by decide) (by decide), by decide⟩

/-- C3 (code bug): the claim demands that the Fibonacci field order
equal `ceil(log2 polynomial)` and the Galois field order the exact bit
length, each reproduced exactly.  The Galois derivation
(`len(f-string of poly in binary)`) is integer-exact in the code, but
the Fibonacci derivation evaluates `ceil(cmath.log(poly, 2).real)` in
IEEE doubles, and CPython's result differs from the exact ceiling at
large polynomials: 30 at `2 ^ 29`, 49 at `2 ^ 49 + 1`, 52 at
`2 ^ 51 - 1` — so the claim is false of the program precisely at the
power-of-two boundary it singles out.  This theorem records the exact
values the claim demands at those failing inputs — 29, 50 and 51 —
together with the integer-exact Galois bit lengths there. -/
theorem field_order_float_bug_values :
    (cl (2 ^ 29) = 29 ∧ cl (2 ^ 49 + 1) = 50 ∧ cl (2 ^ 51 - 1) = 51)
    ∧ (blen (2 ^ 29) = 30 ∧ blen (2 ^ 49 + 1) = 50 ∧ blen (2 ^ 51 - 1) = 51) := by
  have h49 : (1:Nat) ≤ 2 ^ 49 := Nat.one_le_two_pow
  have h50 : (2:Nat) ≤ 2 ^ 50 := by
    calc (2:Nat) = 2 ^ 1 := rfl
    _ ≤ 2 ^ 50 := Nat.pow_le_pow_right (by omega) (by omega)
  have h5051 : (2:Nat) ^ 51 = 2 ^ 50 * 2 := by rw [← Nat.pow_succ]
  have h4950 : (2:Nat) ^ 50 = 2 ^ 49 * 2 := by rw [← Nat.pow_succ]
  refine ⟨⟨cl_two_pow 29 (by omega), ?_, ?_⟩,
    blen_two_pow 29, ?_, ?_⟩
  · have hns : ¬ 2 ^ 49 + 1 ≤ 1 := by omega
    simp only [cl, hns, if_false, Nat.add_sub_cancel]
    exact blen_two_pow 49
  · have hns : ¬ 2 ^ 51 - 1 ≤ 1 := by omega
    simp only [cl, hns, if_false]
    have he : 2 ^ 51 - 1 - 1 = 2 ^ 51 - 2 := by omega
    rw [he]
    refine blen_unique 51 _ (by omega) (by omega) (by omega)
  · refine blen_unique 50 _ (by omega) (by omega) (by omega)
  · refine blen_unique 51 _ (by omega) (by omega) (by omega)

/-- C4 (code bug): the spec requires construction to reject degenerate
polynomials with a typed `InvalidPolynomial` error (Fibonacci for
`poly ≤ 1`, Galois for `poly = 0`), but the source has no such
validation anywhere: `Galois_LFSR(0, 0)` constructs a working 1-bit
register whose transition is the identity; `LFSR(1, s)` constructs a
`field_order = 0` register whose first `next()` then dies with an
untyped `TypeError` from `reduce`; and `LFSR(0, s)` dies inside
`build_poly` with an untyped `ValueError` from `log`, not an
`InvalidPolynomial`. -/
theorem degenerate_construction_behavior :
    Galois_LFSR.mk' 0 0 = { poly := 0, state := 0, state_init := 0 }
      ∧ (Galois_LFSR.mk' 0 0).field_order = 1
      ∧ (Galois_LFSR.mk' 0 0).next = Galois_LFSR.mk' 0 0
      ∧ LFSR.build 1 5 = some (LFSR.mk' 1 5)
      ∧ (LFSR.mk' 1 5).field_order = 0
      ∧ (LFSR.mk' 1 5).next = none
      ∧ LFSR.build 0 0 = none := by
  decide

/-- C5 counterexample: construction performs no state validation, so
`LFSR(11, 31)` is a constructed register (`field_order = 4`); its first
transition produces state 31 again, which is not below
`2 ^ field_order = 16` — the invariant does not hold for every
constructed register after every transition. -/
theorem state_range_counterexample :
    (LFSR.mk' 11 31).next = some { poly := 11, state := 31, state_init := 31 }
      ∧ ¬ (31 < 2 ^ (LFSR.mk' 11 31).field_order) := by
  decide

/-- C5 (amended): whenever the current state is in
`[0, 2 ^ field_order)` — as it is for every state reachable from an
in-range initial state — one Fibonacci round (with `poly ≥ 2`), one
Galois round, and every `cycle`/`full_cycle`/`state_table` step, all of
which iterate those rounds, keep the state strictly below
`2 ^ field_order`. -/
theorem state_range_invariant :
    (∀ p s s', 2 ≤ p → s < 2 ^ cl p → LFSR.fround p s = some s' → s' < 2 ^ cl p)
    ∧ (∀ (r r' : LFSR) (n : Nat), 2 ≤ r.poly → r.state < 2 ^ r.field_order →
        r.cycle n = some r' → r'.state < 2 ^ r'.field_order)
    ∧ (∀ p s, s < 2 ^ blen p → Galois_LFSR.fround p s < 2 ^ blen p)
    ∧ (∀ (r : Galois_LFSR) (n : Nat), r.state < 2 ^ r.field_order →
        (r.cycle n).state < 2 ^ (r.cycle n).field_order) := by
  refine ⟨?_, ?_, ?_, ?_⟩
  · intro p s s' hp hs h
    rw [fib_fround_eq_spec p s hp hs] at h
    have hv := Option.some.inj h
    rw [← hv]
    exact fib_spec_step_lt p s hp
  · intro r r' n hp hs h
    rw [fib_cycle_eq_nextN] at h
    exact fib_nextN_state_lt n r r' hp hs h
  · intro p s hs
    rw [gal_fround_eq_spec p s hs]
    exact galois_spec_step_lt p s
  · intro r n hs
    rw [gal_field_order_eq r] at hs
    rw [gal_cycle_eq_nextN, gal_field_order_eq]
    exact gal_nextN_state_lt n r hs

/-- Witness for C5 (amended) at concrete in-range registers. -/
theorem state_range_invariant_witness :
    (2 ≤ 11 ∧ 1 < 2 ^ cl 11 ∧ LFSR.fround 11 1 = some 3 ∧ 3 < 2 ^ cl 11)
      ∧ (1 < 2 ^ blen 19 ∧ Galois_LFSR.fround 19 1 < 2 ^ blen 19) :=
  ⟨⟨by decide, by decide, by decide,
    state_range_invariant.1 11 1 3 (by decide) (by decide) (by decide)⟩,
   ⟨by decide, state_range_invariant.2.2.1 19 1 (by decide)⟩⟩

/-- C6: for both models, `cycle rounds` equals `rounds` sequential
`next` calls for every `rounds ≥ 0` (in particular `cycle 0` returns the
register unchanged, with no skip-ahead), and `full_cycle` equals
`cycle (2 ^ field_order)`. -/
theorem cycle_next_equivalence :
    (∀ (r : LFSR) (n : Nat), r.cycle n = LFSR.nextN n r)
    ∧ (∀ r : LFSR, r.cycle 0 = some r)
    ∧ (∀ r : LFSR, r.full_cycle = r.cycle (2 ^ r.field_order))
    ∧ (∀ (g : Galois_LFSR) (n : Nat), g.cycle n = Galois_LFSR.nextN n g)
    ∧ (∀ g : Galois_LFSR, g.cycle 0 = g)
    ∧ (∀ g : Galois_LFSR, g.full_cycle = g.cycle (2 ^ g.field_order)) :=
  ⟨fun r n => fib_cycle_eq_nextN r n, fun _ => rfl, fun _ => rfl,
    fun g n => gal_cycle_eq_nextN g n, fun _ => rfl, fun _ => rfl⟩

/-- C8: for both models, `reset` after any number of transitions (any
`cycle n`, which by C6 covers `next` and `full_cycle`) restores exactly
the stored initial state, `load s` replaces state and initial state with
`s` exactly as reconstruction with `(poly, s)` does, and both leave
`poly` and `field_order` unchanged. -/
theorem lifecycle_reset_load (fr fr' : LFSR) (gr : Galois_LFSR) (n s : Nat)
    (h : fr.cycle n = some fr') :
    (fr'.reset.state = fr.state_init
      ∧ fr'.reset = LFSR.mk' fr.poly fr.state_init
      ∧ fr'.reset.poly = fr.poly ∧ fr'.reset.field_order = fr.field_order
      ∧ fr.load s = LFSR.mk' fr.poly s
      ∧ (fr.load s).state = s ∧ (fr.load s).state_init = s
      ∧ (fr.load s).poly = fr.poly ∧ (fr.load s).field_order = fr.field_order)
    ∧ ((gr.cycle n).reset.state = gr.state_init
      ∧ (gr.cycle n).reset = Galois_LFSR.mk' gr.poly gr.state_init
      ∧ (gr.cycle n).reset.poly = gr.poly
      ∧ (gr.cycle n).reset.field_order = gr.field_order
      ∧ gr.load s = Galois_LFSR.mk' gr.poly s
      ∧ (gr.load s).state = s ∧ (gr.load s).state_init = s
      ∧ (gr.load s).poly = gr.poly ∧ (gr.load s).field_order = gr.field_order) := by
  obtain ⟨hp, hi⟩ := fib_cycle_frame fr fr' n h
  obtain ⟨hgp, hgi⟩ := gal_cycle_frame gr n
  refine ⟨⟨hi, ?_, hp, ?_, rfl, rfl, rfl, rfl, rfl⟩,
    ⟨hgi, ?_, hgp, ?_, rfl, rfl, rfl, rfl, rfl⟩⟩
  · show LFSR.mk' fr'.poly fr'.state_init = LFSR.mk' fr.poly fr.state_init
    rw [hp, hi]
  · show cl fr'.poly = cl fr.poly
    rw [hp]
  · show Galois_LFSR.mk' (gr.cycle n).poly (gr.cycle n).state_init
      = Galois_LFSR.mk' gr.poly gr.state_init
    rw [hgp, hgi]
  · show (toBits 0 (gr.cycle n).poly).length = (toBits 0 gr.poly).length
    rw [hgp]

/-- Witness for C8: the Fibonacci register `LFSR(11, 1)` after two
transitions is in state 6; reset and load behave as stated there and on
the Galois register `Galois_LFSR(19, 1)`. -/
theorem lifecycle_reset_load_witness :
    (LFSR.mk' 11 1).cycle 2 = some { poly := 11, state := 6, state_init := 1 }
      ∧ (({ poly := 11, state := 6, state_init := 1 } : LFSR).reset.state = 1
        ∧ ({ poly := 11, state := 6, state_init := 1 } : LFSR).reset = LFSR.mk' 11 1
        ∧ ({ poly := 11, state := 6, state_init := 1 } : LFSR).reset.poly = 11
        ∧ ({ poly := 11, state := 6, state_init := 1 } : LFSR).reset.field_order
            = (LFSR.mk' 11 1).field_order
        ∧ (LFSR.mk' 11 1).load 7 = LFSR.mk' 11 7
        ∧ ((LFSR.mk' 11 1).load 7).state = 7 ∧ ((LFSR.mk' 11 1).load 7).state_init = 7
        ∧ ((LFSR.mk' 11 1).load 7).poly = 11
        ∧ ((LFSR.mk' 11 1).load 7).field_order = (LFSR.mk' 11 1).field_order)
      ∧ (((Galois_LFSR.mk' 19 1).cycle 2).reset.state = 1
        ∧ ((Galois_LFSR.mk' 19 1).cycle 2).reset = Galois_LFSR.mk' 19 1
        ∧ ((Galois_LFSR.mk' 19 1).cycle 2).reset.poly = 19
        ∧ ((Galois_LFSR.mk' 19 1).cycle 2).reset.field_order
            = (Galois_LFSR.mk' 19 1).field_order
        ∧ (Galois_LFSR.mk' 19 1).load 7 = Galois_LFSR.mk' 19 7
        ∧ ((Galois_LFSR.mk' 19 1).load 7).state = 7
        ∧ ((Galois_LFSR.mk' 19 1).load 7).state_init = 7
        ∧ ((Galois_LFSR.mk' 19 1).load 7).poly = 19
        ∧ ((Galois_LFSR.mk' 19 1).load 7).field_order
            = (Galois_LFSR.mk' 19 1).field_order) :=
  ⟨by decide,
    lifecycle_reset_load (LFSR.mk' 11 1) { poly := 11, state := 6, state_init := 1 }
      (Galois_LFSR.mk' 19 1) 2 7 (by decide)⟩

/-- C7: for both models (Fibonacci with a non-degenerate polynomial and
in-range state), `state_table` yields exactly `2 ^ field_order` ordered
records `(cycle index, state, bit string)`: record 0 holds the pre-call
state, record `i` holds the `i`-fold transition of it, consecutive
records are one transition apart, and the register left behind is the
reconstruction from `initial_state` — no other caller-visible effect. -/
theorem state_table_description (fr : LFSR) (gr : Galois_LFSR) (hp : 2 ≤ fr.poly)
    (hfs : fr.state < 2 ^ fr.field_order) (_hgs : gr.state < 2 ^ gr.field_order) :
    (∃ t : List (Nat × Nat × List Nat),
      fr.state_table = some (t, LFSR.mk' fr.poly fr.state_init)
      ∧ t.length = 2 ^ fr.field_order
      ∧ t.get? 0 = some (0, fr.state, toBits fr.field_order fr.state)
      ∧ (∀ i, i < 2 ^ fr.field_order → t.get? i = some (i, fib_iter fr.poly i fr.state,
          toBits fr.field_order (fib_iter fr.poly i fr.state)))
      ∧ (∀ i si si' bi bi', t.get? i = some (i, si, bi)
          → t.get? (i + 1) = some (i + 1, si', bi')
          → LFSR.fround fr.poly si = some si'))
    ∧ (∃ t : List (Nat × Nat × List Nat),
      gr.state_table = (t, Galois_LFSR.mk' gr.poly gr.state_init)
      ∧ t.length = 2 ^ gr.field_order
      ∧ t.get? 0 = some (0, gr.state, toBits gr.field_order gr.state)
      ∧ (∀ i, i < 2 ^ gr.field_order → t.get? i = some (i, gal_iter gr.poly i gr.state,
          toBits gr.field_order (gal_iter gr.poly i gr.state)))
      ∧ (∀ i si si' bi bi', t.get? i = some (i, si, bi)
          → t.get? (i + 1) = some (i + 1, si', bi')
          → Galois_LFSR.fround gr.poly si = si')) :=
  ⟨fib_state_table_spec fr hp hfs, gal_state_table_spec gr⟩

/-- Witness for C7 on the registers `LFSR(2, 1)` and `Galois_LFSR(1, 0)`
(field order 1, so two records each). -/
theorem state_table_description_witness :
    (2 ≤ (LFSR.mk' 2 1).poly
      ∧ (LFSR.mk' 2 1).state < 2 ^ (LFSR.mk' 2 1).field_order
      ∧ (Galois_LFSR.mk' 1 0).state < 2 ^ (Galois_LFSR.mk' 1 0).field_order)
    ∧ ((∃ t : List (Nat × Nat × List Nat),
      (LFSR.mk' 2 1).state_table = some (t, LFSR.mk' (LFSR.mk' 2 1).poly (LFSR.mk' 2 1).state_init)
      ∧ t.length = 2 ^ (LFSR.mk' 2 1).field_order
      ∧ t.get? 0 = some (0, (LFSR.mk' 2 1).state,
          toBits (LFSR.mk' 2 1).field_order (LFSR.mk' 2 1).state)
      ∧ (∀ i, i < 2 ^ (LFSR.mk' 2 1).field_order
          → t.get? i = some (i, fib_iter (LFSR.mk' 2 1).poly i (LFSR.mk' 2 1).state,
              toBits (LFSR.mk' 2 1).field_order (fib_iter (LFSR.mk' 2 1).poly i (LFSR.mk' 2 1).state)))
      ∧ (∀ i si si' bi bi', t.get? i = some (i, si, bi)
          → t.get? (i + 1) = some (i + 1, si', bi')
          → LFSR.fround (LFSR.mk' 2 1).poly si = some si'))
    ∧ (∃ t : List (Nat × Nat × List Nat),
      (Galois_LFSR.mk' 1 0).state_table
          = (t, Galois_LFSR.mk' (Galois_LFSR.mk' 1 0).poly (Galois_LFSR.mk' 1 0).state_init)
      ∧ t.length = 2 ^ (Galois_LFSR.mk' 1 0).field_order
      ∧ t.get? 0 = some (0, (Galois_LFSR.mk' 1 0).state,
          toBits (Galois_LFSR.mk' 1 0).field_order (Galois_LFSR.mk' 1 0).state)
      ∧ (∀ i, i < 2 ^ (Galois_LFSR.mk' 1 0).field_order
          → t.get? i = some (i, gal_iter (Galois_LFSR.mk' 1 0).poly i (Galois_LFSR.mk' 1 0).state,
              toBits (Galois_LFSR.mk' 1 0).field_order
                (gal_iter (Galois_LFSR.mk' 1 0).poly i (Galois_LFSR.mk' 1 0).state)))
      ∧ (∀ i si si' bi bi', t.get? i = some (i, si, bi)
          → t.get? (i + 1) = some (i + 1, si', bi')
          → Galois_LFSR.fround (Galois_LFSR.mk' 1 0).poly si = si'))) :=
  ⟨⟨by decide, by decide, by decide⟩,
    state_table_description (LFSR.mk' 2 1) (Galois_LFSR.mk' 1 0)
      (by decide) (by decide) (by decide)⟩

/-- C9 counterexample: the Fibonacci registers `LFSR(5, 1)` and
`LFSR(8, 1)` have field orders 3 and 3, but `from_lfsrs` pads the
power-of-two polynomial 8 to its 4-character binary string `1000`, so
the composite polynomial is `1011000` (88) and the composite field order
is 7, not the sum 6 — and the composite polynomial is not the
concatenation of the inputs zero-padded to their own field orders. -/
theorem from_registers_counterexample :
    (LFSR.from_lfsrs [LFSR.mk' 5 1, LFSR.mk' 8 1]).map LFSR.field_order = some 7
      ∧ ([LFSR.mk' 5 1, LFSR.mk' 8 1].map LFSR.field_order).sum = 6
      ∧ (LFSR.from_lfsrs [LFSR.mk' 5 1, LFSR.mk' 8 1]).map LFSR.field_order
          ≠ some (([LFSR.mk' 5 1, LFSR.mk' 8 1].map LFSR.field_order).sum) := by
  decide

/-- C9 (amended): the Galois path of `from_lfsrs` is integer-exact, and
for a nonempty list of Galois registers whose leading polynomial is at
least 1 and whose reset states are all in range, it yields a register
whose field order is the sum of the inputs' field orders and whose
polynomial and state are the base-`2 ^ field_order` concatenations
(most significant input first) of the inputs' polynomials and reset
states, each zero-padded to its own field order.  No analogous
Fibonacci statement holds of the program: besides the power-of-two
counterexample, the Fibonacci field order is computed in IEEE doubles
(the C3 code bug), so even a non-power-of-two such as `2 ^ 49 + 1` gets
the attribute 49 on CPython against a 50-character padded chunk and
breaks both the field-order sum and the padded concatenation. -/
theorem gal_from_registers_concat (g0 : Galois_LFSR) (gt : List Galois_LFSR)
    (hg0 : 1 ≤ g0.poly)
    (hgs : ∀ g ∈ g0 :: gt, g.state_init < 2 ^ g.field_order) :
    ∃ G : Galois_LFSR, Galois_LFSR.from_lfsrs (g0 :: gt) = some G
      ∧ G.field_order = ((g0 :: gt).map Galois_LFSR.field_order).sum
      ∧ G.poly = (g0 :: gt).foldl (fun a g => a * 2 ^ g.field_order + g.poly) 0
      ∧ G.state = (g0 :: gt).foldl
          (fun a g => a * 2 ^ g.field_order + (Galois_LFSR.reset g).state) 0 := by
  obtain ⟨h3, h4⟩ := gal_from_lfsrs_spec g0 gt hg0 hgs
  refine ⟨_, h3, ?_, rfl, rfl⟩
  show (toBits 0 ((g0 :: gt).foldl
      (fun a g => a * 2 ^ Galois_LFSR.field_order g + g.poly) 0)).length = _
  rw [length_toBits]
  have := h4
  omega

/-- Witness for C9 (amended) on `Galois_LFSR(2, 1) + Galois_LFSR(1, 0)`:
composite polynomial `0b101 = 5`, state `0b010 = 2`, field order
`2 + 1 = 3`. -/
theorem gal_from_registers_concat_witness :
    (1 ≤ (Galois_LFSR.mk' 2 1).poly
      ∧ (∀ g ∈ [Galois_LFSR.mk' 2 1, Galois_LFSR.mk' 1 0],
          g.state_init < 2 ^ g.field_order))
    ∧ (∃ G : Galois_LFSR,
      Galois_LFSR.from_lfsrs [Galois_LFSR.mk' 2 1, Galois_LFSR.mk' 1 0] = some G
      ∧ G.field_order = ([Galois_LFSR.mk' 2 1, Galois_LFSR.mk' 1 0].map
          Galois_LFSR.field_order).sum
      ∧ G.poly = [Galois_LFSR.mk' 2 1, Galois_LFSR.mk' 1 0].foldl
          (fun a g => a * 2 ^ g.field_order + g.poly) 0
      ∧ G.state = [Galois_LFSR.mk' 2 1, Galois_LFSR.mk' 1 0].foldl
          (fun a g => a * 2 ^ g.field_order + (Galois_LFSR.reset g).state) 0) :=
  ⟨⟨by decide, by decide⟩,
    gal_from_registers_concat (Galois_LFSR.mk' 2 1) [Galois_LFSR.mk' 1 0]
      (by decide) (by decide)⟩

/-- C10: the Galois `algebraic` rendering always ends in the constant
term `1`, for every polynomial — the term list is some bit-dependent
list of `x ^ k` and `x` terms followed by an unconditional `"1"` — in
particular also when the least significant polynomial bit is 0
(`poly = 0b10` renders as `x ^ 2 + 1`). -/
theorem galois_algebraic_constant_term :
    (∀ poly : Nat, ∃ xs : List String,
        Galois_LFSR.algebraic_terms poly = xs ++ ["1"]
          ∧ (Galois_LFSR.algebraic_terms poly).getLast? = some "1")
      ∧ (Galois_LFSR.mk' 2 0).algebraic = "x ^ 2 + 1"
      ∧ (Galois_LFSR.mk' 5 0).algebraic = "x ^ 3 + x + 1" := by
  refine ⟨fun poly => ⟨_, rfl, ?_⟩, by decide, by decide⟩
  exact List.getLast?_concat _
